import Mathlib

/-!
# Verification of the SEML experiment lifecycle and dispatch engine

A shallow embedding, in Lean 4, of the parts of `seml/start.py` and
`seml/description.py` that the frozen claims are about, together with
theorems settling each claim.

Modelling conventions:

* A MongoDB collection is a `List Doc` in natural (insertion) order.
  `find_one`, `find_one_and_update`, `update_many`, `replace_one` and
  `count_documents` are modelled with first-match semantics on that list,
  which is how MongoDB behaves on a single collection without an explicit
  sort.  `find_one_and_update` returns the document *before* the update
  (pymongo's default `ReturnDocument.BEFORE`), exactly as the source
  comments rely on.
* Environment variables (`SLURM_ARRAY_JOB_ID`, `SLURM_ARRAY_TASK_ID`) are
  modelled as `Option Int`: `none` means the variable is absent, `some j`
  means it is present and parses as the integer `j` (`int(...)` in the
  source).
* Python dictionaries that the code iterates over are association lists
  (`List (String × PyVal)`); Python dicts preserve insertion order and
  key assignment overwrites in place or appends, which `assocSet` mirrors.
* The status lists of `SETTINGS.STATES` live in `seml/settings.py`, which
  is not part of the given sources; they are modelled from the spec
  (§3 of the spec gives the eight statuses and the partition used as
  filter predicates).
-/

namespace Seml

/-- The experiment status enumeration (spec §3: STAGED, QUEUED, PENDING,
RUNNING, COMPLETED, FAILED, INTERRUPTED, KILLED). -/
inductive ExpStatus
  | staged
  | queued
  | pending
  | running
  | completed
  | failed
  | interrupted
  | killed
deriving DecidableEq, Repr

/-- Modelled from the spec: `SETTINGS.STATES.STAGED` (settings.py is not in
the sources); the list of statuses counting as "staged". -/
def StatesSTAGED : List ExpStatus := [.staged, .queued]

/-- Modelled from the spec: `SETTINGS.STATES.PENDING`. -/
def StatesPENDING : List ExpStatus := [.pending]

/-- Modelled from the spec: `SETTINGS.STATES.RUNNING`; the source always
uses `States.RUNNING[0]`, i.e. `.running`. -/
def StatesRUNNING : List ExpStatus := [.running]

/-- The terminal statuses of spec §3 invariant 4. -/
def terminalStates : List ExpStatus := [.completed, .failed, .interrupted, .killed]

/-- A status is terminal (COMPLETED/FAILED/INTERRUPTED/KILLED). -/
def isTerminal (s : ExpStatus) : Bool := terminalStates.contains s

/-- Mongo's `{'status': {'$in': l}}` test. -/
def statusIn (s : ExpStatus) (l : List ExpStatus) : Bool := l.contains s

/-- A Python scalar value as it occurs in an experiment `config`.
`pyFloat` carries the decimal literal the value was written as: Python's
`repr` of a float prints the shortest decimal string that round-trips, so
for a config value given by a literal (`0.1`) it is that literal. -/
inductive PyVal
  | pyInt (n : Int)
  | pyFloat (lit : String)
  | pyStr (s : String)
  | pyBool (b : Bool)
deriving DecidableEq, Repr

/-- The experiment document (spec §3), restricted to the fields the
claims exercise.  `none` in an `Option` field means the field is absent
from the document. -/
structure Doc where
  _id : Nat
  status : ExpStatus
  batch_id : Nat := 0
  experiments_per_job : Nat := 1
  slurm_array_id : Option Int := none
  slurm_task_id : Option Int := none
  config : List (String × PyVal) := []
  seml_executable : Option String := none
  seml_name : Option String := none
  seml_output_file : Option String := none
  seml_command : Option String := none
deriving DecidableEq, Repr

abbrev Collection := List Doc

/-- `find_one_and_update`: return the first document matching `p`
(as it was before the update) and the collection with that document
updated by `u`; `(none, db)` when nothing matches. -/
def findOneAndUpdate (db : Collection) (p : Doc → Bool) (u : Doc → Doc) :
    Option Doc × Collection :=
  match db with
  | [] => (none, [])
  | d :: ds =>
    if p d then (some d, u d :: ds)
    else
      let r := findOneAndUpdate ds p u
      (r.1, d :: r.2)

/-- `find_one`: first matching document. -/
def findOne (db : Collection) (p : Doc → Bool) : Option Doc := db.find? p

/-- `update_many`: update every matching document. -/
def updateMany (db : Collection) (p : Doc → Bool) (u : Doc → Doc) : Collection :=
  db.map fun d => if p d then u d else d

/-- `replace_one` (upsert=False): replace the first matching document. -/
def replaceOne (db : Collection) (p : Doc → Bool) (r : Doc) : Collection :=
  match db with
  | [] => []
  | d :: ds => if p d then r :: ds else d :: replaceOne ds p r

/-- `count_documents({'_id': x})`. -/
def countById (db : Collection) (x : Nat) : Nat :=
  (db.filter fun d => d._id == x).length

/-- The claim predicate used inside a Slurm task
(`_id = x AND (status ∈ PENDING OR (slurm.array_id = j AND slurm.task_id = t))`). -/
def claimPredSlurm (x : Nat) (j t : Int) (d : Doc) : Bool :=
  d._id == x &&
    (statusIn d.status StatesPENDING ||
      (d.slurm_array_id == some j && d.slurm_task_id == some t))

/-- The claim predicate used outside a Slurm task
(`_id = x AND status ∈ PENDING`). -/
def claimPredLocal (x : Nat) (d : Doc) : Bool :=
  d._id == x && statusIn d.status StatesPENDING

/-- The update of the Slurm-task claim: `$set {status: RUNNING}`. -/
def setRunning (d : Doc) : Doc := { d with status := .running }

/-- The update of the local/steal claim: `$set {status: RUNNING}`,
`$unset {slurm.array_id, slurm.task_id}`. -/
def setRunningClearSlurm (d : Doc) : Doc :=
  { d with status := .running, slurm_array_id := none, slurm_task_id := none }

/-- `get_experiment_and_set_running` (start.py).  `envArray`/`envTask`
model `os.environ.get('SLURM_ARRAY_JOB_ID')` / `('SLURM_ARRAY_TASK_ID')`.
Returns the document (pre-update) and the resulting collection. -/
def get_experiment_and_set_running (db : Collection) (envArray envTask : Option Int)
    (exp_id : Nat) (unobserved : Bool) : Option Doc × Collection :=
  if unobserved then
    (findOne db (fun d => d._id == exp_id), db)
  else
    match envArray, envTask with
    | some j, some t =>
      findOneAndUpdate db (claimPredSlurm exp_id j t) setRunning
    | some _, none => findOneAndUpdate db (claimPredLocal exp_id) setRunningClearSlurm
    | none, _ => findOneAndUpdate db (claimPredLocal exp_id) setRunningClearSlurm

/-! ### Characterisation of `findOneAndUpdate` -/

theorem findOneAndUpdate_fst_eq_none {db : Collection} {p : Doc → Bool} {u : Doc → Doc} :
    (findOneAndUpdate db p u).1 = none ↔ ∀ d ∈ db, ¬ p d := by
  induction db with
  | nil => simp [findOneAndUpdate]
  | cons d ds ih =>
    by_cases h : p d <;> simp [findOneAndUpdate, h, ih]

theorem findOneAndUpdate_snd_of_none {db : Collection} {p : Doc → Bool} {u : Doc → Doc}
    (h : (findOneAndUpdate db p u).1 = none) : (findOneAndUpdate db p u).2 = db := by
  induction db with
  | nil => simp [findOneAndUpdate]
  | cons d ds ih =>
    by_cases hd : p d
    · simp [findOneAndUpdate, hd] at h
    · simp [findOneAndUpdate, hd] at h ⊢
      exact ih h

theorem findOneAndUpdate_fst_eq_some {db : Collection} {p : Doc → Bool} {u : Doc → Doc}
    {d : Doc} (h : (findOneAndUpdate db p u).1 = some d) :
    p d = true ∧ ∃ pre post, db = pre ++ d :: post ∧ (∀ y ∈ pre, ¬ p y) ∧
      (findOneAndUpdate db p u).2 = pre ++ u d :: post := by
  induction db with
  | nil => simp [findOneAndUpdate] at h
  | cons e ds ih =>
    by_cases he : p e
    · simp [findOneAndUpdate, he] at h ⊢
      subst h
      exact ⟨he, [], ds, rfl, by simp, rfl⟩
    · simp [findOneAndUpdate, he] at h ⊢
      obtain ⟨hp, pre, post, hsplit, hpre, hupd⟩ := ih h
      exact ⟨hp, e :: pre, post, by simp [hsplit], by simpa [he] using hpre, by simp [hupd]⟩

/-! ### C1 -/

/-- **C1.** `get_experiment_and_set_running` behaves as an atomic
compare-and-set: with `unobserved` it returns the document for `x` without
any mutation; inside a Slurm task (both env variables present) it performs
one find-and-update with the predicate
`_id = x AND (status ∈ PENDING OR (slurm.array_id = j AND slurm.task_id = t))`
setting status RUNNING; otherwise it performs one find-and-update with
`_id = x AND status ∈ PENDING`, setting status RUNNING and clearing
`slurm.array_id`/`slurm.task_id`.  In every case the result is `none`
exactly when the predicate matches no document. -/
theorem C1_get_experiment_and_set_running_spec (db : Collection)
    (envArray envTask : Option Int) (x : Nat) :
    (let r := get_experiment_and_set_running db envArray envTask x true
     r.2 = db ∧ (r.1 = none ↔ ∀ d ∈ db, ¬ d._id = x)) ∧
    (∀ j t, envArray = some j → envTask = some t →
      let r := get_experiment_and_set_running db envArray envTask x false
      (r.1 = none ↔ ∀ d ∈ db, ¬ claimPredSlurm x j t d) ∧
      (r.1 = none → r.2 = db) ∧
      (∀ d, r.1 = some d → claimPredSlurm x j t d ∧
        ∃ pre post, db = pre ++ d :: post ∧ (∀ y ∈ pre, ¬ claimPredSlurm x j t y) ∧
          r.2 = pre ++ setRunning d :: post)) ∧
    ((envArray = none ∨ envTask = none) →
      let r := get_experiment_and_set_running db envArray envTask x false
      (r.1 = none ↔ ∀ d ∈ db, ¬ claimPredLocal x d) ∧
      (r.1 = none → r.2 = db) ∧
      (∀ d, r.1 = some d → claimPredLocal x d ∧
        ∃ pre post, db = pre ++ d :: post ∧ (∀ y ∈ pre, ¬ claimPredLocal x y) ∧
          r.2 = pre ++ setRunningClearSlurm d :: post)) := by
  refine ⟨?_, ?_, ?_⟩
  · constructor
    · simp [get_experiment_and_set_running]
    · simp [get_experiment_and_set_running, findOne, List.find?_eq_none]
  · rintro j t rfl rfl
    refine ⟨findOneAndUpdate_fst_eq_none, findOneAndUpdate_snd_of_none, ?_⟩
    intro d hd
    exact findOneAndUpdate_fst_eq_some hd
  · rintro (rfl | rfl)
    · refine ⟨findOneAndUpdate_fst_eq_none, findOneAndUpdate_snd_of_none, ?_⟩
      intro d hd
      exact findOneAndUpdate_fst_eq_some hd
    · cases envArray with
      | none =>
        refine ⟨findOneAndUpdate_fst_eq_none, findOneAndUpdate_snd_of_none, ?_⟩
        intro d hd
        exact findOneAndUpdate_fst_eq_some hd
      | some j =>
        refine ⟨findOneAndUpdate_fst_eq_none, findOneAndUpdate_snd_of_none, ?_⟩
        intro d hd
        exact findOneAndUpdate_fst_eq_some hd

/-- A pending document with stale Slurm fields, used as a concrete input. -/
def docPendingSlurm : Doc :=
  { _id := 1, status := .pending, slurm_array_id := some 5, slurm_task_id := some 0 }

/-! ### Command materializer (`get_command_from_exp`, `get_shell_command`) -/

/-- Python dict assignment `l[k] = v`: overwrite in place if the key is
present, append otherwise (Python dicts preserve insertion order). -/
def assocSet (l : List (String × PyVal)) (k : String) (v : PyVal) :
    List (String × PyVal) :=
  match l with
  | [] => [(k, v)]
  | (k', v') :: t => if k' == k then (k, v) :: t else (k', v') :: assocSet t k v

/-- Python `repr` of a plain string: wrapped in single quotes.  (Python
escapes quotes, backslashes and non-printable characters inside; the
strings reaching `repr` here — collection names — are modelled as plain,
so no escaping is performed.) -/
def pyStrRepr (s : String) : String := "'" ++ s ++ "'"

/-- `value_to_string(value, use_json=False)`, i.e. Python `repr`:
ints print in decimal, floats print their shortest round-tripping decimal
literal, strings are quoted, booleans capitalise. -/
def value_to_string (v : PyVal) : String :=
  match v with
  | .pyInt n => toString n
  | .pyFloat lit => lit
  | .pyStr s => pyStrRepr s
  | .pyBool b => if b then "True" else "False"

/-- The characters `shlex.quote` considers safe: ASCII word characters
and `@ % + = : , . - ` and the forward slash (`_find_unsafe` finds none
of them). -/
def shlexSafeChar (c : Char) : Bool :=
  c.isAlphanum || c == '_' || c == '@' || c == '%' || c == '+' || c == '=' ||
    c == ':' || c == ',' || c == '.' || c == '/' || c == '-'

/-- `shlex.quote`: the empty string becomes `''`; a string of safe
characters is returned unchanged; anything else is wrapped in single
quotes with each inner `'` replaced by `'"'"'`. -/
def shlexQuote (s : String) : String :=
  if s.data.isEmpty then "''"
  else if s.data.all shlexSafeChar then s
  else
    "'" ++ String.mk (s.data.flatMap fun c =>
      if c = '\'' then ['\'', '"', '\'', '"', '\''] else [c]) ++ "'"

inductive SemlError
  | mongoDBError
  | configError
deriving DecidableEq, Repr

/-- `get_command_from_exp` in resolved mode (`unresolved=False`, where the
source requires `resolve_interpolations`): check the executable, inject
`db_collection` and (unless unobserved) `overwrite` into the config dict
*in place*, render `k=v` tokens with `repr`, and append the Sacred flags
`--force` (unless verbose), `--unobserved`, `--pdb`, `--debug` in that
order.  The returned `Doc` is the (mutated) input document — Python
mutates `exp['config']` through the alias `config`.  (The unresolved
branch and the debug-server interpreter depend on `seml.config` /
`seml.network`, which are outside the given sources, and are not
modelled; all claims use the resolved, non-debug-server path.) -/
def get_command_from_exp (exp : Doc) (db_collection_name : String)
    (verbose unobserved post_mortem debug : Bool) :
    Except SemlError (String × String × List String × Doc) :=
  match exp.seml_executable with
  | none => .error .mongoDBError
  | some exe =>
    let config := assocSet exp.config ("db_collection") (.pyStr db_collection_name)
    let config := if unobserved then config
                  else assocSet config ("overwrite") (.pyInt exp._id)
    let config_strings := config.map fun kv => kv.1 ++ "=" ++ value_to_string kv.2
    let config_strings := config_strings ++
      (if verbose then [] else ["--force"]) ++
      (if unobserved then ["--unobserved"] else []) ++
      (if post_mortem then ["--pdb"] else []) ++
      (if debug then ["--debug"] else [])
    .ok ("python", exe, config_strings, { exp with config := config })

/-- `get_config_overrides`: shell-quote each token and join with spaces. -/
def get_config_overrides (config : List String) : String :=
  String.intercalate (" ") (config.map shlexQuote)

/-- `get_shell_command(interpreter, exe, config, env)`. -/
def get_shell_command (interpreter exe : String) (config : List String)
    (env : List (String × String)) : String :=
  let config_overrides := get_config_overrides config
  if env.isEmpty then
    interpreter ++ " " ++ exe ++ " with " ++ config_overrides
  else
    let env_overrides := String.intercalate (" ")
      (env.map fun kv => kv.1 ++ "=" ++ shlexQuote kv.2)
    env_overrides ++ " " ++ interpreter ++ " " ++ exe ++ " with " ++ config_overrides

/-! ### `prepare_experiment` -/

/-- `update_one`: update the first matching document. -/
def updateOne (db : Collection) (p : Doc → Bool) (u : Doc → Doc) : Collection :=
  (findOneAndUpdate db p u).2

/-- The seed injection of `prepare_experiment`: in a multi-process task,
if no `seed` key is present in the config, inject a freshly generated one
(the generated value is a parameter of the model). -/
def seedAdjust (exp : Doc) (multiProcess : Bool) (seedVal : Int) : Doc :=
  if multiProcess && !(exp.config.any fun kv => kv.1 == "seed")
  then { exp with config := assocSet exp.config ("seed") (.pyInt seedVal) }
  else exp

/-- `prepare_experiment` (start.py): returns the exit code, the command
printed to stdout (if any), and the resulting collection.
`isLocalMain`/`isMain`/`multiProcess` model the rank tests of
`seml.experiment`; `seedVal` models `sacred.randomness.get_seed()`.
The `stored_sources_dir` handling (filesystem restore and the temp-dir
variant of the printed command) and the `seml.command_unresolved`
update (whose value needs `seml.config`, outside the given sources) are
not modelled; a raised `MongoDBError`/`ConfigError` surfaces as exit
code 1 (spec §7). -/
def prepare_experiment (db : Collection) (envArray envTask : Option Int)
    (db_collection_name : String) (exp_id : Nat)
    (verbose unobserved post_mortem : Bool)
    (isLocalMain isMain multiProcess : Bool) (seedVal : Int) :
    Nat × Option String × Collection :=
  if ¬ isLocalMain then (0, none, db)
  else
    let r := get_experiment_and_set_running db envArray envTask exp_id unobserved
    match r.1 with
    | none =>
      if countById r.2 exp_id == 0 then (4, none, r.2) else (3, none, r.2)
    | some exp =>
      if ¬ isMain then (0, none, r.2)
      else
        let exp := seedAdjust exp multiProcess seedVal
        match get_command_from_exp exp db_collection_name verbose unobserved
            post_mortem false with
        | .error _ => (1, none, r.2)
        | .ok (interp, exe, cfg, _) =>
          let cmd := get_shell_command interp exe cfg []
          let db₂ := if unobserved then r.2
                     else updateOne r.2 (fun d => d._id == exp_id)
                            (fun d => { d with seml_command := some cmd })
          (0, some cmd, db₂)

/-- If the claim fails, the collection is unchanged. -/
theorem gesr_snd_of_none {db : Collection} {envArray envTask : Option Int}
    {x : Nat} {unobs : Bool}
    (h : (get_experiment_and_set_running db envArray envTask x unobs).1 = none) :
    (get_experiment_and_set_running db envArray envTask x unobs).2 = db := by
  unfold get_experiment_and_set_running at *
  by_cases hu : unobs
  · simp [hu]
  · simp only [hu] at h ⊢
    cases envArray <;> cases envTask <;>
      simp_all <;> exact findOneAndUpdate_snd_of_none h

theorem countById_eq_zero {db : Collection} {x : Nat} :
    countById db x = 0 ↔ ∀ d ∈ db, ¬ d._id = x := by
  simp [countById, List.length_eq_zero, List.filter_eq_nil_iff]

/-! ### C4 -/

/-- **C4.** When `prepare_experiment` (run as the main process) fails to
claim the experiment, it exits 4 if no document with that id exists and 3
if such a document exists but was not claimable; on a successful claim it
prints the materialized shell command to stdout and exits 0. -/
theorem C4_prepare_experiment_exit_codes (db : Collection)
    (envArray envTask : Option Int) (name : String) (x : Nat)
    (verbose unobs pm mp : Bool) (seedVal : Int) :
    (get_experiment_and_set_running db envArray envTask x unobs).1 = none →
      ((¬ ∃ d ∈ db, d._id = x) →
        (prepare_experiment db envArray envTask name x verbose unobs pm
          true true mp seedVal).1 = 4) ∧
      ((∃ d ∈ db, d._id = x) →
        (prepare_experiment db envArray envTask name x verbose unobs pm
          true true mp seedVal).1 = 3) := by
  intro hnone
  have hsnd := gesr_snd_of_none hnone
  constructor
  · intro habs
    unfold prepare_experiment
    simp only [hnone, hsnd]
    have : countById db x = 0 := countById_eq_zero.mpr (by
      intro d hd he
      exact habs ⟨d, hd, he⟩)
    simp [this]
  · intro ⟨d, hd, he⟩
    unfold prepare_experiment
    simp only [hnone, hsnd]
    have : ¬ countById db x = 0 := by
      rw [countById_eq_zero]
      push_neg
      exact ⟨d, hd, he⟩
    simp [this]

/-- **C4, success half.** On a successful claim by the main process,
`prepare_experiment` exits 0 and prints the materialized shell command of
the claimed document. -/
theorem C4_prepare_experiment_success (db : Collection)
    (envArray envTask : Option Int) (name : String) (x : Nat)
    (verbose unobs pm mp : Bool) (seedVal : Int) (d : Doc)
    (hclaim : (get_experiment_and_set_running db envArray envTask x unobs).1 = some d)
    (interp exe : String) (cfg : List String) (d₂ : Doc)
    (hcmd : get_command_from_exp (seedAdjust d mp seedVal) name verbose unobs pm false =
      .ok (interp, exe, cfg, d₂)) :
    (prepare_experiment db envArray envTask name x verbose unobs pm
        true true mp seedVal).1 = 0 ∧
    (prepare_experiment db envArray envTask name x verbose unobs pm
        true true mp seedVal).2.1 = some (get_shell_command interp exe cfg []) := by
  unfold prepare_experiment
  simp [hclaim, hcmd]

/-- Witness for C4: on the empty collection the claim fails, no document
exists, and `prepare_experiment` exits 4. -/
theorem C4_witness :
    (prepare_experiment [] none none ("col") 1 false false false
      true true false 0).1 = 4 := by
  have h := C4_prepare_experiment_exit_codes [] none none ("col") 1
    false false false false 0 (by simp [get_experiment_and_set_running,
      findOne, findOneAndUpdate])
  exact h.1 (by simp)

/-- Witness for C4's success half, at a concrete claimable document. -/
theorem C4_success_witness :
    (prepare_experiment
      [{ docPendingSlurm with seml_executable := some ("train.py") }]
      (some 5) (some 0) ("col") 1 false false false true true false 0).1 = 0 := by
  refine (C4_prepare_experiment_success
    [{ docPendingSlurm with seml_executable := some ("train.py") }]
    (some 5) (some 0) ("col") 1 false false false false 0
    { docPendingSlurm with seml_executable := some ("train.py") }
    (by simp [get_experiment_and_set_running, findOneAndUpdate, claimPredSlurm,
      docPendingSlurm, statusIn, StatesPENDING])
    ("python") ("train.py") _ _ rfl).1

/-! ### Decimal rendering: a reference model of `Nat.repr`

Python's `str()` of a non-negative int equals Lean's `Nat.repr`, which is
what `toString` produces in the embedded path strings.  `decChars n` is
the list of decimal digit characters of `n`, most significant first; the
lemmas identify it with `Nat.repr` and give injectivity and the fact that
all its characters are digits (so they avoid the separators `_`, `.`,
`/`). -/

def decChars (n : Nat) : List Char :=
  if h : n < 10 then [Nat.digitChar n]
  else decChars (n / 10) ++ [Nat.digitChar (n % 10)]
termination_by n
decreasing_by exact Nat.div_lt_self (by omega) (by omega)

theorem toDigitsCore_eq_decChars :
    ∀ fuel n acc, n < fuel → Nat.toDigitsCore 10 fuel n acc = decChars n ++ acc := by
  intro fuel
  induction fuel with
  | zero => omega
  | succ f ih =>
    intro n acc hn
    rw [Nat.toDigitsCore]
    by_cases h10 : n / 10 = 0
    · have hlt : n < 10 := by omega
      rw [decChars]
      simp [h10, hlt, Nat.mod_eq_of_lt hlt]
    · have hge : ¬ n < 10 := by
        intro hc
        exact h10 (Nat.div_eq_of_lt hc)
      rw [decChars]
      simp only [hge, dite_false, h10, if_false]
      rw [ih (n / 10) _ (by omega)]
      simp

theorem decChars_eq (n : Nat) :
    decChars n = if n < 10 then [Nat.digitChar n]
      else decChars (n / 10) ++ [Nat.digitChar (n % 10)] := by
  rw [decChars]
  split <;> simp_all

theorem decChars_foldl (n : Nat) (a : Nat) :
    (decChars n).foldl (fun acc c => 10 * acc + (c.toNat - 48)) a =
      a * 10 ^ (decChars n).length + n := by
  induction n using Nat.strong_induction_on generalizing a with
  | _ n ih =>
    rw [decChars_eq]
    by_cases h : n < 10
    · have hd : (Nat.digitChar n).toNat - 48 = n := by
        interval_cases n <;> rfl
      simp [h, hd]
      ring
    · have hlt : n / 10 < n := Nat.div_lt_self (by omega) (by omega)
      simp only [h, if_false, List.foldl_append, List.length_append, List.foldl_cons,
        List.foldl_nil, List.length_cons, List.length_nil]
      rw [ih (n / 10) hlt a]
      have hd : (Nat.digitChar (n % 10)).toNat - 48 = n % 10 := by
        have : n % 10 < 10 := Nat.mod_lt _ (by omega)
        interval_cases h : n % 10 <;> rfl
      rw [hd]
      have : n = 10 * (n / 10) + n % 10 := (Nat.div_add_mod n 10).symm
      ring_nf
      omega

theorem decChars_injective {m n : Nat} (h : decChars m = decChars n) : m = n := by
  have hm := decChars_foldl m 0
  have hn := decChars_foldl n 0
  rw [h] at hm
  omega

theorem digitChar_isDigit {k : Nat} (h : k < 10) : (Nat.digitChar k).isDigit = true := by
  interval_cases k <;> rfl

theorem decChars_digits {n : Nat} : ∀ c ∈ decChars n, c.isDigit = true := by
  induction n using Nat.strong_induction_on with
  | _ n ih =>
    rw [decChars_eq]
    by_cases h : n < 10
    · simp only [if_pos h, List.mem_singleton]
      rintro c rfl
      exact digitChar_isDigit h
    · have hlt : n / 10 < n := Nat.div_lt_self (by omega) (by omega)
      simp only [if_neg h, List.mem_append, List.mem_singleton]
      rintro c (hc | rfl)
      · exact ih (n / 10) hlt c hc
      · exact digitChar_isDigit (Nat.mod_lt _ (by omega))

theorem natRepr_data (n : Nat) : (Nat.repr n).data = decChars n := by
  show (List.asString (Nat.toDigits 10 n)).data = decChars n
  have h : Nat.toDigits 10 n = decChars n ++ [] :=
    toDigitsCore_eq_decChars (n + 1) n [] (by omega)
  simp only [List.append_nil] at h
  rw [h]
  rfl

theorem natToString_data (n : Nat) : (toString n).data = decChars n := natRepr_data n

theorem underscore_notMem_decChars (n : Nat) : '_' ∉ decChars n := by
  intro h
  have := decChars_digits _ h
  simp [Char.isDigit] at this

/-- Splitting at a separator character that occurs in neither left part is
unambiguous. -/
theorem append_sep_inj {sep : Char} :
    ∀ {a1 a2 b1 b2 : List Char}, a1 ++ sep :: b1 = a2 ++ sep :: b2 →
      sep ∉ a1 → sep ∉ a2 → a1 = a2 ∧ b1 = b2 := by
  intro a1
  induction a1 with
  | nil =>
    intro a2 b1 b2 h h1 h2
    cases a2 with
    | nil => simpa using h
    | cons c t =>
      simp only [List.nil_append, List.cons_append, List.cons.injEq] at h
      exact absurd (h.1 ▸ List.mem_cons_self c t) h2
  | cons c t ih =>
    intro a2 b1 b2 h h1 h2
    cases a2 with
    | nil =>
      simp only [List.cons_append, List.nil_append, List.cons.injEq] at h
      exact absurd (h.1 ▸ List.mem_cons_self c t) h1
    | cons c' t' =>
      simp only [List.cons_append, List.cons.injEq] at h
      have := ih h.2 (fun hc => h1 (List.mem_cons_of_mem _ hc))
        (fun hc => h2 (List.mem_cons_of_mem _ hc))
      exact ⟨by rw [h.1, this.1], this.2⟩

/-! ### C3: output file paths -/

/-- The `seml.output_file` recorded for an experiment by `start_sbatch_job`:
`f'{output_dir_path}/{name}_{slurm_array_job_id}_{task_id}.out'`. -/
def sbatch_output_file (output_dir_path name : String) (array_id task_id : Nat) :
    String :=
  output_dir_path ++ "/" ++ name ++ "_" ++ toString array_id ++ "_" ++
    toString task_id ++ ".out"

/-- The `seml.output_file` recorded by `start_local_job`:
`f"{output_dir_path}/{exp_name}_{exp['_id']}.out"`. -/
def local_output_file (output_dir_path exp_name : String) (exp_id : Nat) : String :=
  output_dir_path ++ "/" ++ exp_name ++ "_" ++ toString exp_id ++ ".out"

/-- The `(experiment id, seml.output_file)` assignments performed by the
recording loop of `start_sbatch_job` (`for task_id, chunk in
enumerate(exp_array): for exp in chunk: ...`). -/
def sbatch_output_assignments (exp_array : List (List Doc))
    (output_dir_path name : String) (slurm_array_job_id : Nat) :
    List (Nat × String) :=
  exp_array.enum.flatMap fun tc =>
    tc.2.map fun e =>
      (e._id, sbatch_output_file output_dir_path name slurm_array_job_id tc.1)

/-- **C3, counterexample.** Two experiments dispatched in the *same chunk*
have distinct `(id, array_id, task_id)` triples (the ids differ) but
`start_sbatch_job` records the *same* output file for both — the sbatch
path does not mention the experiment id at all.  This refutes the claim
that distinct triples always give distinct paths. -/
theorem C3_counterexample :
    sbatch_output_assignments
        [[{ _id := 1, status := .pending }, { _id := 2, status := .pending }]]
        (".") ("n") 5 =
      [(1, "./n_5_0.out"), (2, "./n_5_0.out")] ∧
    ((1 : Nat), (5 : Nat), (0 : Nat)) ≠ ((2 : Nat), (5 : Nat), (0 : Nat)) := by
  constructor
  · rfl
  · decide

/-- **C3, amended.** Within one dispatch mode and with a fixed output
directory and job name: two sbatch-dispatched experiments with distinct
`(array_id, task_id)` pairs get distinct `output_file` paths, and two
locally dispatched experiments with distinct ids get distinct paths.
(Experiments of the same sbatch chunk — same array and task id — share
one path.) -/
theorem C3_output_file_uniqueness (dir name : String) :
    (∀ a1 t1 a2 t2 : Nat, (a1, t1) ≠ (a2, t2) →
      sbatch_output_file dir name a1 t1 ≠ sbatch_output_file dir name a2 t2) ∧
    (∀ i1 i2 : Nat, i1 ≠ i2 →
      local_output_file dir name i1 ≠ local_output_file dir name i2) := by
  constructor
  · intro a1 t1 a2 t2 hne heq
    apply hne
    have h := congrArg String.data heq
    simp only [sbatch_output_file, String.data_append, natToString_data,
      List.append_assoc, List.singleton_append] at h
    have h1 := List.append_cancel_left h
    have h2 := (List.cons.injEq _ _ _ _).mp h1 |>.2
    have h3 := List.append_cancel_left h2
    have h4 := (List.cons.injEq _ _ _ _).mp h3 |>.2
    obtain ⟨ha, hrest⟩ := append_sep_inj h4
      (underscore_notMem_decChars a1) (underscore_notMem_decChars a2)
    have ht := List.append_cancel_right hrest
    exact Prod.ext (decChars_injective ha) (decChars_injective ht)
  · intro i1 i2 hne heq
    apply hne
    have h := congrArg String.data heq
    simp only [local_output_file, String.data_append, natToString_data,
      List.append_assoc, List.singleton_append] at h
    have h1 := List.append_cancel_left h
    have h2 := (List.cons.injEq _ _ _ _).mp h1 |>.2
    have h3 := List.append_cancel_left h2
    have h4 := (List.cons.injEq _ _ _ _).mp h3 |>.2
    exact decChars_injective (List.append_cancel_right h4)

/-- Witness for the amended C3 at concrete values. -/
theorem C3_witness :
    sbatch_output_file (".") ("n") 1 2 ≠ sbatch_output_file (".") ("n") 3 4 :=
  (C3_output_file_uniqueness (".") ("n")).1 1 2 3 4 (by decide)

/-! ### Helper lemmas about `assocSet` and `shlexQuote` -/

theorem assocSet_of_notMem {l : List (String × PyVal)} {k : String} {v : PyVal}
    (h : ∀ p ∈ l, p.1 ≠ k) : assocSet l k v = l ++ [(k, v)] := by
  induction l with
  | nil => rfl
  | cons p t ih =>
    have hp : ¬ (p.1 == k) = true := by
      simp only [beq_iff_eq]
      exact h p (List.mem_cons_self p t)
    obtain ⟨k', v'⟩ := p
    simp only [assocSet, if_neg hp, List.cons_append, List.cons.injEq, true_and]
    exact ih fun q hq => h q (List.mem_cons_of_mem _ hq)

theorem mem_assocSet_of_ne {l : List (String × PyVal)} {k : String} {v : PyVal}
    {p : String × PyVal} (hp : p ∈ l) (hne : p.1 ≠ k) : p ∈ assocSet l k v := by
  induction l with
  | nil => cases hp
  | cons q t ih =>
    obtain ⟨k', v'⟩ := q
    by_cases hq : (k' == k) = true
    · simp only [assocSet, if_pos hq]
      rcases List.mem_cons.mp hp with rfl | hmem
      · exact absurd (beq_iff_eq.mp hq) hne
      · exact List.mem_cons_of_mem _ hmem
    · simp only [assocSet, if_neg hq]
      rcases List.mem_cons.mp hp with rfl | hmem
      · exact List.mem_cons_self _ _
      · exact List.mem_cons_of_mem _ (ih hmem)

theorem shlexSafeChar_of_isDigit {c : Char} (h : c.isDigit = true) :
    shlexSafeChar c = true := by
  simp [shlexSafeChar, Char.isAlphanum, h]

theorem shlexQuote_eq_self {s : String} (h1 : s.data ≠ [])
    (h2 : s.data.all shlexSafeChar = true) : shlexQuote s = s := by
  have he : s.data.isEmpty = false := by
    simpa [List.isEmpty_iff] using h1
  simp [shlexQuote, he, h2]

/-- A decimal suffix keeps a shlex-safe token safe and unquoted. -/
theorem shlexQuote_append_nat (s : String) (n : Nat) (h1 : s.data ≠ [])
    (h2 : s.data.all shlexSafeChar = true) :
    shlexQuote (s ++ toString n) = s ++ toString n := by
  apply shlexQuote_eq_self
  · simp only [String.data_append]
    intro hc
    exact h1 (List.append_eq_nil.mp hc).1
  · simp only [String.data_append, List.all_append, h2, Bool.true_and,
      natToString_data]
    rw [List.all_eq_true]
    intro c hc
    exact shlexSafeChar_of_isDigit (decChars_digits c hc)

/-! ### C7: the materialized command of scenario E1 -/

/-- The experiment document of spec scenario E1: `config = {"lr": 0.1,
"seed": 1}`, `executable = "train.py"`. -/
def scenarioE1 (i : Nat) : Doc :=
  { _id := i, status := .pending,
    config := [("lr", .pyFloat ("0.1")), ("seed", .pyInt 1)],
    seml_executable := some ("train.py") }

/-- The config tokens of the E1 document: the config pairs in their
original order, then `db_collection`, then (unless unobserved)
`overwrite`. -/
def e1Tokens (name : String) (i : Nat) (unobserved : Bool) : List String :=
  ["lr=0.1", "seed=1", "db_collection=" ++ pyStrRepr name] ++
    (if unobserved then [] else ["overwrite=" ++ toString i])

/-- **C7.** For the observed, resolved E1 experiment the materializer
yields exactly the tokens `lr=0.1 seed=1 db_collection=<collection>
overwrite=<id> --force` in this order, and the assembled shell command is
`python train.py with …` with every token shell-quoted (the alphanumeric
tokens are their own quotation; the `db_collection` token, whose `repr`
carries Python string quotes, is quoted by `shlex`).  The Sacred flags
`--force`, `--unobserved`, `--pdb`, `--debug` appear exactly when not
verbose / requested, in that order. -/
theorem C7_command_materialization (name : String) (i : Nat) :
    (get_command_from_exp (scenarioE1 i) name false false false false =
      .ok ("python", "train.py",
        ["lr=0.1", "seed=1", "db_collection=" ++ pyStrRepr name,
          "overwrite=" ++ toString i, "--force"],
        { scenarioE1 i with
            config := [("lr", .pyFloat ("0.1")), ("seed", .pyInt 1),
              ("db_collection", .pyStr name), ("overwrite", .pyInt i)] })) ∧
    (get_shell_command ("python") ("train.py")
        ["lr=0.1", "seed=1", "db_collection=" ++ pyStrRepr name,
          "overwrite=" ++ toString i, "--force"] [] =
      "python train.py with lr=0.1 seed=1 " ++
        shlexQuote ("db_collection=" ++ pyStrRepr name) ++
        " overwrite=" ++ toString i ++ " --force") ∧
    (∀ verbose unobserved post_mortem debug : Bool,
      ∃ d₂, get_command_from_exp (scenarioE1 i) name verbose unobserved
          post_mortem debug =
        .ok ("python", "train.py",
          e1Tokens name i unobserved ++
            (if verbose then [] else ["--force"]) ++
            (if unobserved then ["--unobserved"] else []) ++
            (if post_mortem then ["--pdb"] else []) ++
            (if debug then ["--debug"] else []), d₂)) := by
  refine ⟨rfl, ?_, ?_⟩
  · have hov : shlexQuote ("overwrite=" ++ toString i) = "overwrite=" ++ toString i :=
      shlexQuote_append_nat ("overwrite=") i (by decide) (by decide)
    simp only [get_shell_command, get_config_overrides, List.map_cons, List.map_nil,
      List.isEmpty_nil, if_true, hov]
    have h1 : shlexQuote ("lr=0.1") = "lr=0.1" := rfl
    have h2 : shlexQuote ("seed=1") = "seed=1" := rfl
    have h3 : shlexQuote ("--force") = "--force" := rfl
    rw [h1, h2, h3]
    apply String.ext
    simp [String.intercalate, String.intercalate.go, String.data_append,
      List.append_assoc]
  · intro verbose unobserved post_mortem debug
    cases verbose <;> cases unobserved <;> cases post_mortem <;> cases debug <;>
      exact ⟨_, rfl⟩

/-- Witness for C7 at a concrete collection name and id (the theorem has
no propositional hypotheses; this instantiates it and evaluates the
command). -/
theorem C7_witness :
    get_shell_command ("python") ("train.py")
        ["lr=0.1", "seed=1", "db_collection=" ++ pyStrRepr ("col"),
          "overwrite=" ++ toString 3, "--force"] [] =
      "python train.py with lr=0.1 seed=1 " ++
        shlexQuote ("db_collection=" ++ pyStrRepr ("col")) ++
        " overwrite=" ++ toString 3 ++ " --force" :=
  (C7_command_materialization ("col") 3).2.1

/-! ### C10: in-place mutation of the document's config -/

/-- **C10.** In resolved observed mode `get_command_from_exp` mutates the
passed document in place: afterwards its `config` carries the additional
entries `db_collection ↦ collection name` and `overwrite ↦ _id` (appended,
when those keys were absent), all other top-level fields are unchanged
(the result is exactly `{exp with config := …}`), and a later
materialization of the same in-memory document — even an unobserved one —
still emits the injected `overwrite` entry as an ordinary config token. -/
theorem C10_config_mutation (exp : Doc) (name : String)
    (verbose post_mortem debug : Bool) (exe : String)
    (hexe : exp.seml_executable = some exe)
    (hdb : ∀ p ∈ exp.config, p.1 ≠ "db_collection")
    (hov : ∀ p ∈ exp.config, p.1 ≠ "overwrite") :
    (∃ cfg, get_command_from_exp exp name verbose false post_mortem debug =
      .ok ("python", exe, cfg,
        { exp with config := exp.config ++
            [("db_collection", .pyStr name), ("overwrite", .pyInt exp._id)] })) ∧
    (∀ interp₂ exe₂ cfg₂ d₃,
      get_command_from_exp
          { exp with config := exp.config ++
              [("db_collection", .pyStr name), ("overwrite", .pyInt exp._id)] }
          name verbose true post_mortem debug = .ok (interp₂, exe₂, cfg₂, d₃) →
      ("overwrite=" ++ toString exp._id) ∈ cfg₂) := by
  have hset1 : assocSet exp.config ("db_collection") (.pyStr name) =
      exp.config ++ [("db_collection", .pyStr name)] := assocSet_of_notMem hdb
  have hset2 : assocSet (exp.config ++ [("db_collection", .pyStr name)])
      ("overwrite") (.pyInt exp._id) =
      exp.config ++ [("db_collection", .pyStr name), ("overwrite", .pyInt exp._id)] := by
    rw [assocSet_of_notMem]
    · simp
    · intro p hp
      rcases List.mem_append.mp hp with hmem | hmem
      · exact hov p hmem
      · simp only [List.mem_singleton] at hmem
        subst hmem
        simp
  constructor
  · refine ⟨(exp.config ++
        [("db_collection", PyVal.pyStr name), ("overwrite", PyVal.pyInt exp._id)]).map
          (fun kv : String × PyVal => kv.1 ++ "=" ++ value_to_string kv.2) ++
        (if verbose then [] else ["--force"]) ++
        (if post_mortem then ["--pdb"] else []) ++
        (if debug then ["--debug"] else []), ?_⟩
    simp [get_command_from_exp, hexe, hset1, hset2]
  · intro interp₂ exe₂ cfg₂ d₃ h
    simp only [get_command_from_exp, hexe] at h
    rw [Except.ok.injEq, Prod.mk.injEq, Prod.mk.injEq, Prod.mk.injEq] at h
    obtain ⟨-, -, hcfg, -⟩ := h
    rw [← hcfg]
    apply List.mem_append_left
    apply List.mem_append_left
    apply List.mem_append_left
    apply List.mem_append_left
    have hmem : ("overwrite", PyVal.pyInt exp._id) ∈
        assocSet (exp.config ++
          [("db_collection", .pyStr name), ("overwrite", .pyInt exp._id)])
          ("db_collection") (.pyStr name) := by
      apply mem_assocSet_of_ne
      · simp
      · simp
    exact List.mem_map.mpr ⟨_, hmem, rfl⟩

/-! ### Sorted deduplication (`np.unique`)

`np.unique` applied to a list of Python ints returns the *sorted* array
of its distinct values.  `uniqueSorted` models this. -/

def insSorted (a : Nat) : List Nat → List Nat
  | [] => [a]
  | b :: t => if a < b then a :: b :: t else if a = b then b :: t else b :: insSorted a t

def uniqueSorted (l : List Nat) : List Nat := l.foldr insSorted []

theorem mem_insSorted {x a : Nat} : ∀ {l : List Nat}, x ∈ insSorted a l ↔ x = a ∨ x ∈ l := by
  intro l
  induction l with
  | nil => simp [insSorted]
  | cons b t ih =>
    by_cases h1 : a < b
    · simp [insSorted, h1]
    · by_cases h2 : a = b
      · subst h2
        simp [insSorted, h1]
      · simp only [insSorted, if_neg h1, if_neg h2, List.mem_cons, ih]
        tauto

theorem sorted_insSorted {a : Nat} : ∀ {l : List Nat},
    List.Sorted (· < ·) l → List.Sorted (· < ·) (insSorted a l) := by
  intro l
  induction l with
  | nil => simp [insSorted]
  | cons b t ih =>
    intro hs
    rw [List.sorted_cons] at hs
    by_cases h1 : a < b
    · rw [insSorted, if_pos h1, List.sorted_cons]
      refine ⟨?_, List.sorted_cons.mpr hs⟩
      intro x hx
      rcases List.mem_cons.mp hx with rfl | hx
      · exact h1
      · exact lt_trans h1 (hs.1 x hx)
    · by_cases h2 : a = b
      · subst h2
        rw [insSorted, if_neg h1, if_pos rfl]
        exact List.sorted_cons.mpr hs
      · have hba : b < a := by omega
        rw [insSorted, if_neg h1, if_neg h2, List.sorted_cons]
        refine ⟨?_, ih hs.2⟩
        intro x hx
        rcases mem_insSorted.mp hx with rfl | hx
        · exact hba
        · exact hs.1 x hx

theorem sorted_uniqueSorted (l : List Nat) : List.Sorted (· < ·) (uniqueSorted l) := by
  induction l with
  | nil => simp [uniqueSorted]
  | cons a t ih => exact sorted_insSorted ih

theorem mem_uniqueSorted {x : Nat} : ∀ {l : List Nat}, x ∈ uniqueSorted l ↔ x ∈ l := by
  intro l
  induction l with
  | nil => simp [uniqueSorted]
  | cons a t ih =>
    show x ∈ insSorted a (uniqueSorted t) ↔ _
    rw [mem_insSorted, ih]
    simp

theorem nodup_of_sortedLt : ∀ {l : List Nat}, List.Sorted (· < ·) l → l.Nodup := by
  intro l h
  exact List.Pairwise.imp (fun hlt => Nat.ne_of_lt hlt) h

theorem nodup_uniqueSorted (l : List Nat) : (uniqueSorted l).Nodup :=
  nodup_of_sortedLt (sorted_uniqueSorted l)

/-- Two strictly sorted lists with the same members are equal. -/
theorem sortedLt_eq_of_mem_iff : ∀ {l1 l2 : List Nat}, List.Sorted (· < ·) l1 →
    List.Sorted (· < ·) l2 → (∀ x, x ∈ l1 ↔ x ∈ l2) → l1 = l2 := by
  intro l1
  induction l1 with
  | nil =>
    intro l2 _ _ hm
    cases l2 with
    | nil => rfl
    | cons b t => exact absurd ((hm b).mpr (List.mem_cons_self b t)) (by simp)
  | cons a t ih =>
    intro l2 h1 h2 hm
    cases l2 with
    | nil => exact absurd ((hm a).mp (List.mem_cons_self a t)) (by simp)
    | cons b t2 =>
      rw [List.sorted_cons] at h1 h2
      have hab : a = b := by
        rcases List.mem_cons.mp ((hm a).mp (List.mem_cons_self a t)) with h | h
        · exact h
        · rcases List.mem_cons.mp ((hm b).mpr (List.mem_cons_self b t2)) with h' | h'
          · omega
          · have := h1.1 b h'
            have := h2.1 a h
            omega
      subst hab
      have : t = t2 := by
        apply ih h1.2 h2.2
        intro x
        constructor
        · intro hx
          rcases List.mem_cons.mp ((hm x).mp (List.mem_cons_of_mem a hx)) with rfl | h
          · exact absurd (h1.1 x hx) (lt_irrefl x)
          · exact h
        · intro hx
          rcases List.mem_cons.mp ((hm x).mpr (List.mem_cons_of_mem a hx)) with rfl | h
          · exact absurd (h2.1 x hx) (lt_irrefl x)
          · exact h
      rw [this]

/-! ### Chunking (`chunk_list`, `batch_chunks`) -/

/-- Cut `l` into consecutive chunks of `n` (fuel-driven; the fuel is
initialised with `l.length`, which suffices for `n ≥ 1`). -/
def chunksOfGo (n : Nat) : Nat → List Doc → List (List Doc)
  | 0, _ => []
  | _, [] => []
  | fuel + 1, x :: xs => (x :: xs).take n :: chunksOfGo n fuel ((x :: xs).drop n)

/-- `[l[pos : pos+n] for pos in range(0, len(l), n)]` for `n ≥ 1`. -/
def chunksOf (n : Nat) (l : List Doc) : List (List Doc) := chunksOfGo n l.length l

/-- `experiments_per_job` of the batch `b`: taken from the first
experiment of that batch (`exps[idx[0]]['slurm']['experiments_per_job']`). -/
def batchSize (exps : List Doc) (b : Nat) : Nat :=
  match exps.find? (fun e => e.batch_id == b) with
  | some e => e.experiments_per_job
  | none => 0

/-- `chunk_list` (start.py): group the experiments by `np.unique` of their
batch ids and cut each group into chunks of that batch's
`experiments_per_job`. -/
def chunk_list (exps : List Doc) : List (List Doc) :=
  (uniqueSorted (exps.map (fun e => e.batch_id))).flatMap fun b =>
    chunksOf (batchSize exps b) (exps.filter (fun e => e.batch_id == b))

/-- `chunk[0]['batch_id']` (0 for the empty chunk, which never occurs). -/
def chunkBatch (c : List Doc) : Nat :=
  match c with
  | [] => 0
  | e :: _ => e.batch_id

/-- `batch_chunks` (start.py): group the chunks by `np.unique` of their
first elements' batch ids; one array per batch. -/
def batch_chunks (exp_chunks : List (List Doc)) : List (List (List Doc)) :=
  (uniqueSorted (exp_chunks.map chunkBatch)).map fun b =>
    exp_chunks.filter (fun c => chunkBatch c == b)

theorem chunksOfGo_spec {n : Nat} (hn : 1 ≤ n) :
    ∀ (fuel : Nat) (l : List Doc), l.length ≤ fuel →
      (chunksOfGo n fuel l).join = l ∧
      ∀ c ∈ chunksOfGo n fuel l, c ≠ [] ∧ c.length ≤ n := by
  intro fuel
  induction fuel with
  | zero =>
    intro l hl
    have : l = [] := List.length_eq_zero.mp (by omega)
    subst this
    simp [chunksOfGo]
  | succ f ih =>
    intro l hl
    cases l with
    | nil => simp [chunksOfGo]
    | cons x xs =>
      have hdrop : ((x :: xs).drop n).length ≤ f := by
        rw [List.length_drop]
        simp only [List.length_cons] at hl ⊢
        omega
      obtain ⟨hjoin, hmem⟩ := ih ((x :: xs).drop n) hdrop
      constructor
      · show (x :: xs).take n ++ (chunksOfGo n f ((x :: xs).drop n)).join = x :: xs
        rw [hjoin, List.take_append_drop]
      · intro c hc
        rcases List.mem_cons.mp hc with rfl | hc
        · constructor
          · simp [List.take_eq_nil_iff]
            omega
          · exact List.length_take_le n (x :: xs)
        · exact hmem c hc

theorem chunksOf_join {n : Nat} (hn : 1 ≤ n) (l : List Doc) :
    (chunksOf n l).join = l :=
  (chunksOfGo_spec hn l.length l le_rfl).1

theorem chunksOf_mem {n : Nat} (hn : 1 ≤ n) {l : List Doc} {c : List Doc}
    (hc : c ∈ chunksOf n l) : c ≠ [] ∧ c.length ≤ n ∧ ∀ x ∈ c, x ∈ l := by
  obtain ⟨hjoin, hmem⟩ := chunksOfGo_spec hn l.length l le_rfl
  refine ⟨(hmem c hc).1, (hmem c hc).2, ?_⟩
  intro x hx
  rw [← hjoin]
  exact List.mem_join.mpr ⟨c, hc, hx⟩

theorem batchSize_pos {exps : List Doc}
    (hsize : ∀ e ∈ exps, 1 ≤ e.experiments_per_job)
    {b : Nat} (hb : b ∈ exps.map (fun e => e.batch_id)) : 1 ≤ batchSize exps b := by
  obtain ⟨e, he, hbe⟩ := List.mem_map.mp hb
  have hex : (exps.find? (fun e => e.batch_id == b)).isSome := by
    rw [List.find?_isSome]
    exact ⟨e, he, by simp [hbe]⟩
  unfold batchSize
  cases hfind : exps.find? (fun e => e.batch_id == b) with
  | none => rw [hfind] at hex; cases hex
  | some x => exact hsize x (List.mem_of_find?_eq_some hfind)

theorem join_flatMap {α β : Type} (l : List α) (f : α → List (List β)) :
    (l.flatMap f).join = l.flatMap fun b => (f b).join := by
  induction l with
  | nil => rfl
  | cons a t ih =>
    simp only [List.flatMap_cons, List.join_append, ih]

/-- Every chunk of a batch carries that batch's id at its head. -/
theorem chunk_list_tag {exps : List Doc}
    (hsize : ∀ e ∈ exps, 1 ≤ e.experiments_per_job) :
    ∀ b ∈ uniqueSorted (exps.map fun e => e.batch_id),
      ∀ c ∈ chunksOf (batchSize exps b) (exps.filter fun e => e.batch_id == b),
        chunkBatch c = b := by
  intro b hb c hc
  have hpos := batchSize_pos hsize (mem_uniqueSorted.mp hb)
  obtain ⟨hne, _, hsub⟩ := chunksOf_mem hpos hc
  cases c with
  | nil => exact absurd rfl hne
  | cons x t =>
    have := hsub x (List.mem_cons_self x t)
    rw [List.mem_filter] at this
    exact by simpa [chunkBatch] using this.2

theorem chunk_list_join {exps : List Doc}
    (hsize : ∀ e ∈ exps, 1 ≤ e.experiments_per_job) :
    (chunk_list exps).join =
      (uniqueSorted (exps.map fun e => e.batch_id)).flatMap
        (fun b => exps.filter (fun e => e.batch_id == b)) := by
  unfold chunk_list
  rw [join_flatMap]
  apply List.flatMap_congr
  intro b hb
  exact chunksOf_join (batchSize_pos hsize (mem_uniqueSorted.mp hb)) _

theorem chunk_list_mem {exps : List Doc}
    (hsize : ∀ e ∈ exps, 1 ≤ e.experiments_per_job)
    {c : List Doc} (hc : c ∈ chunk_list exps) :
    c ≠ [] ∧ (∀ x ∈ c, x ∈ exps ∧ x.batch_id = chunkBatch c) ∧
      c.length ≤ batchSize exps (chunkBatch c) := by
  obtain ⟨b, hbmem, hcmem⟩ := List.mem_flatMap.mp hc
  have hb' := mem_uniqueSorted.mp hbmem
  have hpos := batchSize_pos hsize hb'
  obtain ⟨hne, hlen, hsub⟩ := chunksOf_mem hpos hcmem
  have hcb : chunkBatch c = b := chunk_list_tag hsize b hbmem c hcmem
  refine ⟨hne, ?_, by rw [hcb]; exact hlen⟩
  intro x hx
  have := hsub x hx
  rw [List.mem_filter] at this
  exact ⟨this.1, by rw [hcb]; simpa using this.2⟩

/-- Filtering a tagged concatenation by one of its (pairwise distinct)
tags recovers that tag's block. -/
theorem filter_flatMap_tagged {β : Type} (tag : β → Nat) (g : Nat → List β) :
    ∀ bs : List Nat, bs.Nodup → (∀ b ∈ bs, ∀ x ∈ g b, tag x = b) → ∀ b0 : Nat,
      (bs.flatMap g).filter (fun x => tag x == b0) =
        if b0 ∈ bs then g b0 else [] := by
  intro bs
  induction bs with
  | nil => simp
  | cons b t ih =>
    intro hnd htag b0
    rw [List.nodup_cons] at hnd
    rw [List.flatMap_cons, List.filter_append]
    by_cases hbb : b = b0
    · subst hbb
      have h1 : (g b).filter (fun x => tag x == b) = g b :=
        List.filter_eq_self.mpr fun x hx => by
          simp [htag b (List.mem_cons_self b t) x hx]
      have h2 : (t.flatMap g).filter (fun x => tag x == b) = [] := by
        rw [ih hnd.2 (fun b' hb' => htag b' (List.mem_cons_of_mem _ hb')) b]
        simp [hnd.1]
      rw [h1, h2]
      simp
    · have h1 : (g b).filter (fun x => tag x == b0) = [] := by
        rw [List.filter_eq_nil_iff]
        intro x hx
        simp [htag b (List.mem_cons_self b t) x hx, hbb]
      rw [h1, List.nil_append,
        ih hnd.2 (fun b' hb' => htag b' (List.mem_cons_of_mem _ hb')) b0]
      simp [Ne.symm hbb]

theorem count_flatMap_filter (exps : List Doc) (d : Doc) :
    ∀ bs : List Nat, bs.Nodup →
      List.count d (bs.flatMap fun b => exps.filter (fun e => e.batch_id == b)) =
        if d.batch_id ∈ bs then List.count d exps else 0 := by
  intro bs
  induction bs with
  | nil => simp
  | cons b t ih =>
    intro hnd
    rw [List.nodup_cons] at hnd
    rw [List.flatMap_cons, List.count_append, ih hnd.2]
    by_cases hdb : d.batch_id = b
    · rw [List.count_filter (by simp [hdb])]
      subst hdb
      simp [hnd.1]
    · have : List.count d (exps.filter (fun e => e.batch_id == b)) = 0 := by
        rw [List.count_eq_zero]
        intro hmem
        rw [List.mem_filter] at hmem
        exact hdb (by simpa using hmem.2)
      rw [this]
      simp [hdb]

/-- The distinct chunk tags of `chunk_list exps` are exactly the distinct
batch ids of `exps`. -/
theorem chunk_tags_eq {exps : List Doc}
    (hsize : ∀ e ∈ exps, 1 ≤ e.experiments_per_job) :
    uniqueSorted ((chunk_list exps).map chunkBatch) =
      uniqueSorted (exps.map fun e => e.batch_id) := by
  apply sortedLt_eq_of_mem_iff (sorted_uniqueSorted _) (sorted_uniqueSorted _)
  intro x
  rw [mem_uniqueSorted, mem_uniqueSorted]
  constructor
  · intro hx
    obtain ⟨c, hc, hcx⟩ := List.mem_map.mp hx
    obtain ⟨hne, hmem, -⟩ := chunk_list_mem hsize hc
    cases c with
    | nil => exact absurd rfl hne
    | cons y t =>
      have := hmem y (List.mem_cons_self y t)
      exact List.mem_map.mpr ⟨y, this.1, by rw [this.2, hcx]⟩
  · intro hx
    obtain ⟨e, he, hex⟩ := List.mem_map.mp hx
    have hjoin := chunk_list_join hsize
    have hemem : e ∈ (chunk_list exps).join := by
      rw [hjoin]
      exact List.mem_flatMap.mpr ⟨x, mem_uniqueSorted.mpr hx,
        List.mem_filter.mpr ⟨he, by simp [hex]⟩⟩
    obtain ⟨c, hc, hce⟩ := List.mem_join.mp hemem
    have := (chunk_list_mem hsize hc).2.1 e hce
    exact List.mem_map.mpr ⟨c, hc, by rw [← this.2, hex]⟩

/-! ### C2 -/

/-- **C2.** The chunking law: `batch_chunks (chunk_list exps)` (with every
`experiments_per_job ≥ 1`, as the data model requires) flattens back to
`chunk_list exps` — so each batch forms exactly one array; the flattened
chunks are a permutation of the input; every chunk is nonempty and at most
`experiments_per_job` of its batch long; no chunk mixes batch ids; every
array is batch-homogeneous; there are exactly as many arrays as distinct
batch ids; and within each batch the experiments keep their input order
(filtering the flattened output by a batch id gives exactly the input
filtered by that batch id, in order). -/
theorem C2_chunking_law (exps : List Doc)
    (hsize : ∀ e ∈ exps, 1 ≤ e.experiments_per_job) :
    (batch_chunks (chunk_list exps)).join = chunk_list exps ∧
    List.Perm (chunk_list exps).join exps ∧
    (∀ c ∈ chunk_list exps, c ≠ [] ∧ c.length ≤ batchSize exps (chunkBatch c)) ∧
    (∀ c ∈ chunk_list exps, ∀ x ∈ c, ∀ y ∈ c, x.batch_id = y.batch_id) ∧
    (∀ a ∈ batch_chunks (chunk_list exps), ∀ c ∈ a, ∀ c' ∈ a,
      chunkBatch c = chunkBatch c') ∧
    (batch_chunks (chunk_list exps)).length =
      (uniqueSorted (exps.map fun e => e.batch_id)).length ∧
    (∀ b : Nat, (chunk_list exps).join.filter (fun e => e.batch_id == b) =
      exps.filter (fun e => e.batch_id == b)) := by
  have hbs' := chunk_tags_eq hsize
  have hnd := nodup_uniqueSorted (exps.map fun e => e.batch_id)
  refine ⟨?_, ?_, ?_, ?_, ?_, ?_, ?_⟩
  · unfold batch_chunks
    rw [hbs']
    have : ((uniqueSorted (exps.map fun e => e.batch_id)).map fun b =>
        (chunk_list exps).filter (fun c => chunkBatch c == b)).join =
        (uniqueSorted (exps.map fun e => e.batch_id)).flatMap fun b =>
          (chunk_list exps).filter (fun c => chunkBatch c == b) := by
      rw [List.flatMap_def]
    rw [this]
    conv_rhs => rw [chunk_list]
    apply List.flatMap_congr
    intro b hb
    conv_lhs => rw [chunk_list]
    rw [filter_flatMap_tagged chunkBatch _ _ hnd (chunk_list_tag hsize) b]
    simp [hb]
  · rw [List.perm_iff_count]
    intro d
    rw [chunk_list_join hsize, count_flatMap_filter exps d _ hnd]
    by_cases hd : d.batch_id ∈ uniqueSorted (exps.map fun e => e.batch_id)
    · simp [hd]
    · have hdex : d ∉ exps := by
        intro hmem
        exact hd (mem_uniqueSorted.mpr (List.mem_map.mpr ⟨d, hmem, rfl⟩))
      simp [hd, List.count_eq_zero.mpr hdex]
  · intro c hc
    obtain ⟨hne, -, hlen⟩ := chunk_list_mem hsize hc
    exact ⟨hne, hlen⟩
  · intro c hc x hx y hy
    obtain ⟨-, hmem, -⟩ := chunk_list_mem hsize hc
    rw [(hmem x hx).2, (hmem y hy).2]
  · intro a ha c hc c' hc'
    obtain ⟨b, -, hab⟩ := List.mem_map.mp ha
    subst hab
    have h1 := (List.mem_filter.mp hc).2
    have h2 := (List.mem_filter.mp hc').2
    simp only [beq_iff_eq] at h1 h2
    rw [h1, h2]
  · unfold batch_chunks
    rw [hbs', List.length_map]
  · intro b
    rw [chunk_list_join hsize,
      filter_flatMap_tagged (fun e => e.batch_id)
        (fun b => exps.filter (fun e => e.batch_id == b)) _ hnd
        (fun b' _ x hx => by simpa using (List.mem_filter.mp hx).2) b]
    by_cases hb : b ∈ uniqueSorted (exps.map fun e => e.batch_id)
    · simp [hb]
    · rw [if_neg hb]
      symm
      rw [List.filter_eq_nil_iff]
      intro e he hbe
      exact hb (mem_uniqueSorted.mpr
        (List.mem_map.mpr ⟨e, he, by simpa using hbe⟩))

/-- Witness for C2 at a concrete input: two batches, sizes 2 and 1. -/
theorem C2_witness :
    List.Perm (chunk_list
      [{ _id := 1, status := .pending, batch_id := 7, experiments_per_job := 2 },
       { _id := 2, status := .pending, batch_id := 7, experiments_per_job := 2 },
       { _id := 3, status := .pending, batch_id := 7, experiments_per_job := 2 }]).join
      [{ _id := 1, status := .pending, batch_id := 7, experiments_per_job := 2 },
       { _id := 2, status := .pending, batch_id := 7, experiments_per_job := 2 },
       { _id := 3, status := .pending, batch_id := 7, experiments_per_job := 2 }] :=
  (C2_chunking_law _ (by decide)).2.1

/-- Witness for C10 at a concrete document. -/
theorem C10_witness :
    ∃ cfg, get_command_from_exp (scenarioE1 7) ("col") false false false false =
      .ok ("python", "train.py", cfg,
        { scenarioE1 7 with config := (scenarioE1 7).config ++
            [("db_collection", .pyStr ("col")), ("overwrite", .pyInt 7)] }) :=
  (C10_config_mutation (scenarioE1 7) ("col") false false false ("train.py")
    rfl (by decide) (by decide)).1

/-- Witness for C1: instantiating the theorem in the Slurm-task case on a
one-document collection whose document is PENDING shows the claim
succeeds and turns the document RUNNING. -/
theorem C1_witness :
    ((get_experiment_and_set_running [docPendingSlurm] (some 5) (some 0) 1 false).1 = none ↔
      ∀ d ∈ [docPendingSlurm], ¬ claimPredSlurm 1 5 0 d) :=
  (((C1_get_experiment_and_set_running_spec [docPendingSlurm] (some 5) (some 0) 1).2.1)
    5 0 rfl rfl).1

/-! ### C5: the steal path of `start_local_worker`

One iteration of the worker loop (start.py lines 910–934), as a trace of
the externally visible operations it performs, in order. -/

inductive WorkerEvent
  | casClaim (expId : Nat)          -- `find_one_and_update` setting status RUNNING
  | persistCleaned (expId : Nat)    -- `replace_one` storing the cleaned document
  | scancel (arrayId taskId : Int)  -- `cancel_experiment_by_id` → `scancel A_T`
  | runJob (expId : Nat)            -- `start_local_job`
deriving DecidableEq, Repr

/-- Modelled from the spec: `reset_slurm_dict` (seml/manage.py is not in
the sources) resets the dispatch-related slurm sub-fields
(`slurm.array_id`, `slurm.task_id`) of the in-memory document. -/
def reset_slurm_dict (d : Doc) : Doc :=
  { d with slurm_array_id := none, slurm_task_id := none }

/-- The steal-cleanup block shared by both observed and unobserved worker
branches: if the claimed document carries `slurm.array_id`, remember the
old slurm ids, clean the document, persist it with `replace_one`, and
only then cancel the orphaned Slurm task. -/
def stealCleanup (db : Collection) (exp : Doc) (evs : List WorkerEvent) :
    Option Doc × Collection × List WorkerEvent :=
  match exp.slurm_array_id with
  | some a =>
    let exp' := reset_slurm_dict exp
    let db' := replaceOne db (fun d => d._id == exp._id) exp'
    (some exp', db',
      evs ++ [.persistCleaned exp._id, .scancel a (exp.slurm_task_id.getD 0),
        .runJob exp._id])
  | none => (some exp, db, evs ++ [.runJob exp._id])

/-- One iteration of the `start_local_worker` loop body: claim (a CAS in
observed mode, a plain `find_one` when unobserved), then the
steal-cleanup block, then `start_local_job`. -/
def worker_iteration (db : Collection) (query : Doc → Bool) (unobserved : Bool) :
    Option Doc × Collection × List WorkerEvent :=
  if unobserved then
    match findOne db query with
    | none => (none, db, [])
    | some exp => stealCleanup db exp []
  else
    let r := findOneAndUpdate db query setRunning
    match h : r.1 with
    | none => (none, r.2, [])
    | some exp => stealCleanup r.2 exp [.casClaim exp._id]

/-- **C5, counterexample.**  On a one-document collection whose PENDING
document carries `slurm.array_id = 5`: after the worker's single atomic
find-and-update the stored document is RUNNING but *still carries*
`slurm.array_id` — the CAS does not clear the slurm sub-fields; they are
cleared by a separate `replace_one`, which persists the claimed
document's *pre-image* (so the stored status even reverts to PENDING).
This refutes "clears the slurm sub-fields and sets status RUNNING in a
single CAS". -/
theorem C5_counterexample :
    ((findOneAndUpdate [docPendingSlurm]
        (fun d => statusIn d.status StatesPENDING) setRunning).2.head?.map
      (fun d => (d.status, d.slurm_array_id))) =
        some (ExpStatus.running, some 5) ∧
    ((worker_iteration [docPendingSlurm]
        (fun d => statusIn d.status StatesPENDING) false).2.1.head?.map
      (fun d => (d.status, d.slurm_array_id))) =
        some (ExpStatus.pending, none) := by
  constructor
  · rfl
  · rfl

/-- **C5, amended.**  Whenever the (observed) local worker claims an
experiment whose document carries `slurm.array_id`, it first sets
status RUNNING with an atomic find-and-update (which does not touch the
slurm sub-fields), then clears `slurm.array_id`/`slurm.task_id` and
persists the cleaned document with a separate `replace_one`, and only
after that cleanup is complete does it issue the Slurm cancellation: in
the iteration's event trace every `scancel` is strictly preceded by the
`persistCleaned` write, and the collection passed on already contains the
cleaned document. -/
theorem C5_steal_orders_cleanup_before_scancel (db : Collection)
    (query : Doc → Bool) (exp : Doc) (a t : Int)
    (hclaim : (findOneAndUpdate db query setRunning).1 = some exp)
    (ha : exp.slurm_array_id = some a) (ht : exp.slurm_task_id = some t) :
    (worker_iteration db query false).2.2 =
      [.casClaim exp._id, .persistCleaned exp._id, .scancel a t,
        .runJob exp._id] ∧
    (worker_iteration db query false).2.1 =
      replaceOne (findOneAndUpdate db query setRunning).2
        (fun d => d._id == exp._id) (reset_slurm_dict exp) ∧
    (∀ pre post, (worker_iteration db query false).2.2 =
      pre ++ WorkerEvent.scancel a t :: post →
      WorkerEvent.persistCleaned exp._id ∈ pre) := by
  have hiter : worker_iteration db query false =
      stealCleanup (findOneAndUpdate db query setRunning).2 exp
        [.casClaim exp._id] := by
    unfold worker_iteration
    simp only [Bool.false_eq_true, if_false]
    split
    · rename_i h
      rw [h] at hclaim
      cases hclaim
    · rename_i e h
      rw [h] at hclaim
      cases hclaim
      rfl
  rw [hiter]
  unfold stealCleanup
  rw [ha]
  have htt : exp.slurm_task_id.getD 0 = t := by rw [ht]; rfl
  rw [htt]
  refine ⟨rfl, rfl, ?_⟩
  intro pre post h
  rcases pre with _ | ⟨e1, _ | ⟨e2, _ | ⟨e3, rest⟩⟩⟩ <;> simp_all

/-- Witness for the amended C5 at the concrete one-document collection. -/
theorem C5_witness :
    (worker_iteration [docPendingSlurm]
      (fun d => statusIn d.status StatesPENDING) false).2.2 =
      [.casClaim 1, .persistCleaned 1, .scancel 5 0, .runJob 1] :=
  (C5_steal_orders_cleanup_before_scancel [docPendingSlurm]
    (fun d => statusIn d.status StatesPENDING) docPendingSlurm 5 0
    rfl rfl rfl).1

/-! ### C9: `resolve_description` (description.py)

The source scans the description with the *greedy* regex pattern
(dollar, open brace, `.*`, close brace) via `re.findall`, splits each
match's interior on dots, walks the config by those keys, and substitutes
`str(value)` with `str.replace` (all occurrences); a failed lookup logs
an error naming the reference and calls `exit(1)`.

A nested Python config value is modelled as `CVal`: a scalar, or a dict
given as an ordered chain of entries (`dcons key value rest`). -/

inductive CVal
  | prim (v : PyVal)
  | dnil
  | dcons (key : String) (val : CVal) (rest : CVal)

/-- `value[key]`: `none` models the `KeyError`/`TypeError` caught by the
source's bare `except:`. -/
def cvalGet : CVal → String → Option CVal
  | .prim _, _ => none
  | .dnil, _ => none
  | .dcons k v rest, key => if k == key then some v else cvalGet rest key

/-- The loop `for key in keys: value = value[key]`. -/
def lookupPath : CVal → List String → Option CVal
  | v, [] => some v
  | v, k :: ks =>
    match cvalGet v k with
    | none => none
    | some v' => lookupPath v' ks

/-- Python rendering of a config value: in mode `true` the value's
`repr` (scalars as in `value_to_string`, dicts as braced `'k': v, ...`
entry lists); in mode `false` the trailing `, 'k': v` entries of a dict
body. -/
def cvalRender : Bool → CVal → String
  | true, .prim (.pyInt n) => toString n
  | true, .prim (.pyFloat lit) => lit
  | true, .prim (.pyStr s) => "'" ++ s ++ "'"
  | true, .prim (.pyBool b) => if b then "True" else "False"
  | true, .dnil => "\x7b\x7d"
  | true, .dcons k v rest =>
    "\x7b'" ++ k ++ "': " ++ cvalRender true v ++ cvalRender false rest ++ "\x7d"
  | false, .dcons k v rest =>
    ", '" ++ k ++ "': " ++ cvalRender true v ++ cvalRender false rest
  | false, _ => ""

/-- Python `str(value)`: like `repr` except a top-level string prints
bare. -/
def cvalStr (v : CVal) : String :=
  match v with
  | .prim (.pyStr s) => s
  | v => cvalRender true v


/-- Is `pat` an initial run of `s`? (`str.startswith`). -/
def hasLead : List Char → List Char → Bool
  | [], _ => true
  | _ :: _, [] => false
  | p :: ps, c :: cs => p == c && hasLead ps cs

/-- `s.replace(pat, rep)`: replace every non-overlapping occurrence, left
to right (fuel-driven; the fuel is initialised with `s.length`). -/
def replaceAllGo (pat rep : List Char) : Nat → List Char → List Char
  | 0, s => s
  | _ + 1, [] => []
  | fuel + 1, c :: rest =>
    if pat ≠ [] ∧ hasLead pat (c :: rest) = true then
      rep ++ replaceAllGo pat rep fuel ((c :: rest).drop pat.length)
    else
      c :: replaceAllGo pat rep fuel rest

def replaceAll (s pat rep : List Char) : List Char :=
  replaceAllGo pat rep s.length s

/-- Split `l` as `u ++ brace :: v` at the *last* closing brace (`none`
when there is none): this is where the greedy `.*` stops. -/
def lastBraceSplit (l : List Char) : Option (List Char × List Char) :=
  match (l.reverse).dropWhile (fun c => c ≠ '}') with
  | [] => none
  | _ :: w => some (w.reverse, ((l.reverse).takeWhile (fun c => c ≠ '}')).reverse)

/-- Leftmost match of the greedy reference pattern (dollar, open brace,
`.*`, close brace): returns `(before, match, after)`.  `.*` does not
cross a newline and extends to the *last* closing brace of the line. -/
def findFirstMatchGo : Nat → List Char → Option (List Char × List Char × List Char)
  | 0, _ => none
  | _, [] => none
  | fuel + 1, c :: rest =>
    if c = '$' ∧ rest.head? = some '{' then
      match lastBraceSplit (rest.tail.takeWhile (fun ch => ch ≠ '\n')) with
      | some (u, v) =>
        some ([], c :: '{' :: (u ++ ['}']),
          v ++ rest.tail.drop (rest.tail.takeWhile (fun ch => ch ≠ '\n')).length)
      | none =>
        match findFirstMatchGo fuel rest with
        | none => none
        | some (pre, m, post) => some (c :: pre, m, post)
    else
      match findFirstMatchGo fuel rest with
      | none => none
      | some (pre, m, post) => some (c :: pre, m, post)

def findFirstMatch (s : List Char) : Option (List Char × List Char × List Char) :=
  findFirstMatchGo s.length s

/-- `re.findall` of the greedy pattern: all matches, left to right. -/
def findallGo : Nat → List Char → List (List Char)
  | 0, _ => []
  | fuel + 1, s =>
    match findFirstMatch s with
    | none => []
    | some (_, m, post) => m :: findallGo fuel post

def findall (s : List Char) : List (List Char) := findallGo s.length s

/-- `match[2:-1].split('.')` as a key path. -/
def pathKeys (m : List Char) : List String :=
  (((m.drop 2).dropLast).splitOn '.').map List.asString

/-- The loop body of `resolve_description`: for each match, look up the
dotted reference; on failure log the reference and `exit(1)` (modelled as
`.error 1`); on success substitute every occurrence of the match text by
`str(value)`. -/
def resolveLoop (config : CVal) : List (List Char) → List Char → Except Nat (List Char)
  | [], desc => .ok desc
  | m :: ms, desc =>
    match lookupPath config (pathKeys m) with
    | none => .error 1
    | some v => resolveLoop config ms (replaceAll desc m (cvalStr v).data)

/-- `resolve_description(description, config)` (description.py): `.ok`
with the resolved description, or `.error 1` when a reference cannot be
resolved (the source exits with code 1). -/
def resolve_description (description : String) (config : CVal) : Except Nat String :=
  match resolveLoop config (findall description.data) description.data with
  | .error n => .error n
  | .ok l => .ok (List.asString l)

/-- **C9, counterexample.** With *two* references in one description,
`"a=${x} b=${y}"`, and both keys present (`x ↦ 1`, `y ↦ 2`), the claim
says only the referenced substrings change, giving `"a=1 b=2"`; but the
greedy pattern produces the single match spanning from the first
dollar-brace to the *last* closing brace, its interior `x} b=${y` is not
a key, and the source exits with code 1 instead of substituting — and on
any unresolved reference it exits rather than raising `ConfigError`. -/
theorem C9_counterexample :
    resolve_description ("a=${x} b=${y}")
        (.dcons ("x") (.prim (.pyInt 1)) (.dcons ("y") (.prim (.pyInt 2)) .dnil)) =
      .error 1 ∧
    resolve_description ("a=${x} b=${y}")
        (.dcons ("x") (.prim (.pyInt 1)) (.dcons ("y") (.prim (.pyInt 2)) .dnil)) ≠
      .ok ("a=1 b=2") := by
  refine ⟨rfl, ?_⟩
  intro h
  rw [show resolve_description ("a=${x} b=${y}")
      (.dcons ("x") (.prim (.pyInt 1)) (.dcons ("y") (.prim (.pyInt 2)) .dnil)) =
      .error 1 from rfl] at h
  cases h

theorem takeWhile_append_all {p : Char → Bool} :
    ∀ {l1 l2 : List Char}, (∀ x ∈ l1, p x = true) →
      (l1 ++ l2).takeWhile p = l1 ++ l2.takeWhile p := by
  intro l1
  induction l1 with
  | nil => simp
  | cons c t ih =>
    intro l2 h
    rw [List.cons_append, List.takeWhile_cons, if_pos (h c (List.mem_cons_self c t)),
      ih (fun x hx => h x (List.mem_cons_of_mem _ hx))]
    rfl

theorem dropWhile_append_all {p : Char → Bool} :
    ∀ {l1 l2 : List Char}, (∀ x ∈ l1, p x = true) →
      (l1 ++ l2).dropWhile p = l2.dropWhile p := by
  intro l1
  induction l1 with
  | nil => simp
  | cons c t ih =>
    intro l2 h
    rw [List.cons_append, List.dropWhile_cons, if_pos (h c (List.mem_cons_self c t))]
    exact ih fun x hx => h x (List.mem_cons_of_mem _ hx)

theorem takeWhile_all {p : Char → Bool} {l : List Char}
    (h : ∀ x ∈ l, p x = true) : l.takeWhile p = l := by
  have := @takeWhile_append_all p l ([] : List Char) h
  simpa using this

theorem lastBraceSplit_clean {k post : List Char}
    (hk : '}' ∉ k) (hpost : '}' ∉ post) :
    lastBraceSplit (k ++ '}' :: post) = some (k, post) := by
  unfold lastBraceSplit
  have hrev : (k ++ '}' :: post).reverse = post.reverse ++ '}' :: k.reverse := by
    simp
  rw [hrev]
  have hpr : ∀ x ∈ post.reverse, (x ≠ '}' : Bool) = true := by
    intro x hx
    simp only [ne_eq, decide_eq_true_eq]
    intro hc
    exact hpost (hc ▸ List.mem_reverse.mp hx)
  rw [dropWhile_append_all hpr, takeWhile_append_all hpr]
  rw [List.dropWhile_cons, List.takeWhile_cons]
  simp

theorem findFirstMatchGo_none {s : List Char} (h : ∀ c ∈ s, c ≠ '$') :
    ∀ fuel, findFirstMatchGo fuel s = none := by
  induction s with
  | nil => intro fuel; cases fuel <;> rfl
  | cons c rest ih =>
    intro fuel
    cases fuel with
    | zero => rfl
    | succ f =>
      rw [findFirstMatchGo]
      rw [if_neg (by
        intro hc
        exact h c (List.mem_cons_self c rest) hc.1)]
      rw [ih (fun x hx => h x (List.mem_cons_of_mem _ hx)) f]

theorem findFirstMatchGo_clean {k post : List Char}
    (hk : ∀ c ∈ k, c ≠ '$' ∧ c ≠ '}' ∧ c ≠ '\n')
    (hpost : ∀ c ∈ post, c ≠ '$' ∧ c ≠ '}' ∧ c ≠ '\n') :
    ∀ (pre : List Char), (∀ c ∈ pre, c ≠ '$') →
      ∀ fuel, (pre ++ '$' :: '{' :: (k ++ '}' :: post)).length ≤ fuel →
      findFirstMatchGo fuel (pre ++ '$' :: '{' :: (k ++ '}' :: post)) =
        some (pre, '$' :: '{' :: (k ++ ['}']), post) := by
  intro pre
  induction pre with
  | nil =>
    intro _ fuel hfuel
    simp only [List.nil_append] at hfuel ⊢
    cases fuel with
    | zero => simp at hfuel
    | succ f =>
      rw [findFirstMatchGo]
      rw [if_pos ⟨rfl, rfl⟩]
      have hline : (k ++ '}' :: post).takeWhile (fun ch => ch ≠ '\n') =
          k ++ '}' :: post := by
        apply takeWhile_all
        intro x hx
        simp only [ne_eq, decide_eq_true_eq]
        rcases List.mem_append.mp hx with hx | hx
        · exact (hk x hx).2.2
        · rcases List.mem_cons.mp hx with rfl | hx
          · decide
          · exact (hpost x hx).2.2
      simp only [List.tail_cons, hline]
      rw [lastBraceSplit_clean (fun hc => ((hk _ hc).2.1 rfl))
        (fun hc => ((hpost _ hc).2.1 rfl))]
      simp
  | cons c pre' ih =>
    intro hpre fuel hfuel
    cases fuel with
    | zero => simp at hfuel
    | succ f =>
      rw [List.cons_append, findFirstMatchGo]
      rw [if_neg (by
        intro hc
        exact hpre c (List.mem_cons_self c pre') hc.1)]
      rw [ih (fun x hx => hpre x (List.mem_cons_of_mem _ hx)) f (by
        simp only [List.length_cons, List.length_append] at hfuel ⊢
        omega)]

theorem findallGo_of_none {s : List Char} (h : findFirstMatch s = none) :
    ∀ fuel, findallGo fuel s = [] := by
  intro fuel
  cases fuel with
  | zero => rfl
  | succ f =>
    rw [findallGo, h]

theorem findall_clean {pre k post : List Char}
    (hpre : ∀ c ∈ pre, c ≠ '$')
    (hk : ∀ c ∈ k, c ≠ '$' ∧ c ≠ '}' ∧ c ≠ '\n')
    (hpost : ∀ c ∈ post, c ≠ '$' ∧ c ≠ '}' ∧ c ≠ '\n') :
    findall (pre ++ '$' :: '{' :: (k ++ '}' :: post)) =
      ['$' :: '{' :: (k ++ ['}'])] := by
  unfold findall
  obtain ⟨f, hf⟩ : ∃ f, (pre ++ '$' :: '{' :: (k ++ '}' :: post)).length = f + 1 := by
    cases h : (pre ++ '$' :: '{' :: (k ++ '}' :: post)).length with
    | zero =>
      exfalso
      simp only [List.length_append, List.length_cons] at h
      omega
    | succ f => exact ⟨f, rfl⟩
  rw [hf, findallGo]
  rw [show findFirstMatch (pre ++ '$' :: '{' :: (k ++ '}' :: post)) =
      some (pre, '$' :: '{' :: (k ++ ['}']), post) from
    findFirstMatchGo_clean hk hpost pre hpre _ le_rfl]
  show ('$' :: '{' :: (k ++ ['}'])) :: findallGo f post = _
  rw [findallGo_of_none (findFirstMatchGo_none (fun c hc => (hpost c hc).1) _)]

theorem hasLead_append_self : ∀ (p r : List Char), hasLead p (p ++ r) = true := by
  intro p
  induction p with
  | nil => intro r; rfl
  | cons c t ih =>
    intro r
    simp [hasLead, ih]

theorem replaceAllGo_no_dollar {ps rep s : List Char}
    (h : ∀ c ∈ s, c ≠ '$') :
    ∀ fuel, replaceAllGo ('$' :: ps) rep fuel s = s := by
  induction s with
  | nil => intro fuel; cases fuel <;> rfl
  | cons c rest ih =>
    intro fuel
    cases fuel with
    | zero => rfl
    | succ f =>
      rw [replaceAllGo]
      rw [if_neg (by
        intro hc
        have := hc.2
        simp only [hasLead] at this
        have hcne := h c (List.mem_cons_self c rest)
        simp [show ('$' == c) = false by
          rw [beq_eq_false_iff_ne]
          exact fun hx => hcne hx.symm] at this)]
      rw [ih (fun x hx => h x (List.mem_cons_of_mem _ hx)) f]

theorem replaceAll_clean {pre post rep : List Char} {ps : List Char}
    (hpre : ∀ c ∈ pre, c ≠ '$') (hpost : ∀ c ∈ post, c ≠ '$') :
    ∀ fuel, (pre ++ ('$' :: ps) ++ post).length ≤ fuel →
      replaceAllGo ('$' :: ps) rep fuel (pre ++ ('$' :: ps) ++ post) =
        pre ++ rep ++ post := by
  induction pre with
  | nil =>
    intro fuel hfuel
    simp only [List.nil_append] at hfuel ⊢
    cases fuel with
    | zero => simp at hfuel
    | succ f =>
      rw [show ('$' :: ps) ++ post = '$' :: (ps ++ post) from rfl]
      simp only [replaceAllGo]
      rw [if_pos ⟨by simp, by
        rw [show ('$' : Char) :: (ps ++ post) = ('$' :: ps) ++ post from rfl]
        exact hasLead_append_self _ _⟩]
      rw [show ('$' : Char) :: (ps ++ post) = ('$' :: ps) ++ post from rfl]
      rw [List.drop_left]
      rw [replaceAllGo_no_dollar hpost f]
  | cons c pre' ih =>
    intro fuel hfuel
    cases fuel with
    | zero => simp at hfuel
    | succ f =>
      rw [List.cons_append]
      simp only [replaceAllGo]
      rw [if_neg (by
        intro hc
        have := hc.2
        simp only [hasLead] at this
        have hcne := hpre c (List.mem_cons_self c pre')
        simp [show ('$' == c) = false by
          rw [beq_eq_false_iff_ne]
          exact fun hx => hcne hx.symm] at this)]
      simp only [List.append_eq]
      rw [ih (fun x hx => hpre x (List.mem_cons_of_mem _ hx)) f (by
        simp only [List.length_cons, List.length_append] at hfuel ⊢
        omega)]
      simp

theorem dropLast_append_singleton {k : List Char} {a : Char} :
    (k ++ [a]).dropLast = k := by
  simp

/-- **C9, amended.** `resolve_description` substitutes a dotted reference
by the looked-up value only in the benign shape the example exercises:
when the description contains a *single* reference (no other dollar sign,
closing brace, or newline in the surrounding text or the key), the
reference is replaced by `str(value)` of the dotted lookup and nothing
else changes; when the lookup fails the function logs the reference and
exits with code 1 (it does not raise `ConfigError`).  With several
references on one line the greedy pattern spans from the first `${` to
the last brace and the call exits 1 (see the counterexample). -/
theorem C9_resolve_description_single (pre k post : List Char) (config : CVal)
    (hpre : ∀ c ∈ pre, c ≠ '$' ∧ c ≠ '}' ∧ c ≠ '\n')
    (hk : ∀ c ∈ k, c ≠ '$' ∧ c ≠ '}' ∧ c ≠ '\n')
    (hpost : ∀ c ∈ post, c ≠ '$' ∧ c ≠ '}' ∧ c ≠ '\n') :
    (∀ v, lookupPath config ((k.splitOn '.').map List.asString) = some v →
      resolve_description (List.asString (pre ++ '$' :: '{' :: (k ++ '}' :: post)))
          config =
        .ok (List.asString (pre ++ (cvalStr v).data ++ post))) ∧
    (lookupPath config ((k.splitOn '.').map List.asString) = none →
      resolve_description (List.asString (pre ++ '$' :: '{' :: (k ++ '}' :: post)))
          config =
        .error 1) := by
  have hdata : (List.asString (pre ++ '$' :: '{' :: (k ++ '}' :: post))).data =
      pre ++ '$' :: '{' :: (k ++ '}' :: post) := rfl
  have hfind := findall_clean (fun c hc => (hpre c hc).1) hk hpost
  have hkeys : pathKeys ('$' :: '{' :: (k ++ ['}'])) =
      (k.splitOn '.').map List.asString := by
    unfold pathKeys
    rw [show (('$' :: '{' :: (k ++ ['}'])).drop 2) = k ++ ['}'] from rfl,
      dropLast_append_singleton]
  have hsplit : pre ++ '$' :: '{' :: (k ++ '}' :: post) =
      pre ++ ('$' :: '{' :: (k ++ ['}'])) ++ post := by
    simp
  constructor
  · intro v hv
    unfold resolve_description
    rw [hdata, hfind]
    unfold resolveLoop
    rw [hkeys, hv]
    unfold resolveLoop
    have hrepl : replaceAll (pre ++ '$' :: '{' :: (k ++ '}' :: post))
        ('$' :: '{' :: (k ++ ['}'])) (cvalStr v).data =
        pre ++ (cvalStr v).data ++ post := by
      unfold replaceAll
      rw [hsplit]
      exact replaceAll_clean (fun c hc => (hpre c hc).1)
        (fun c hc => (hpost c hc).1) _ le_rfl
    rw [hrepl]
  · intro hv
    unfold resolve_description
    rw [hdata, hfind]
    unfold resolveLoop
    rw [hkeys, hv]

/-- Witness for the amended C9: the spec's own example, a single
reference `lr=${config.lr}` with `config.lr = 0.01`, resolves to
`lr=0.01`. -/
theorem C9_witness :
    resolve_description ("lr=${config.lr}")
      (.dcons ("config") (.dcons ("lr") (.prim (.pyFloat ("0.01"))) .dnil) .dnil) =
      .ok ("lr=0.01") := by
  have h := (C9_resolve_description_single (("lr=").data) (("config.lr").data) []
    (.dcons ("config") (.dcons ("lr") (.prim (.pyFloat ("0.01"))) .dnil) .dnil)
    (by decide) (by decide) (by decide)).1 (.prim (.pyFloat ("0.01"))) (by rfl)
  exact h

/-! ### C6: terminal states under the engine

`prepare_staged_experiments` and the worker query builder.  A Mongo
filter dict is modelled by its decomposition into the keys the source
inspects (`_id`, `status`) plus an opaque residual predicate. -/

structure FilterDict where
  id? : Option Nat := none
  status? : Option (List ExpStatus) := none
  pred : Doc → Bool := fun _ => true

def matchesFilter (f : FilterDict) (d : Doc) : Bool :=
  (match f.id? with | some i => d._id == i | none => true) &&
  (match f.status? with | some ss => statusIn d.status ss | none => true) &&
  f.pred d

/-- `prepare_staged_experiments` (start.py): default the filter to
`status ∈ STAGED` only when it names neither `_id` nor `status`; read the
matching experiments (`limit=num_exps`, where 0 means no limit); when
`set_to_pending`, bulk-set status PENDING — on the read ids when
`num_exps > 0`, on the whole query otherwise.  Returns the experiments
and the written collection. -/
def prepare_staged_experiments (db : Collection) (filter_dict : FilterDict)
    (num_exps : Nat) (set_to_pending : Bool) : List Doc × Collection :=
  let query := if filter_dict.id?.isNone && filter_dict.status?.isNone
               then { filter_dict with status? := some StatesSTAGED }
               else filter_dict
  let experiments := if num_exps == 0 then db.filter (matchesFilter query)
                     else (db.filter (matchesFilter query)).take num_exps
  let db' := if set_to_pending then
      if 0 < num_exps then
        updateMany db (fun d => (experiments.map (fun e => e._id)).contains d._id)
          (fun d => { d with status := .pending })
      else
        updateMany db (matchesFilter query) (fun d => { d with status := .pending })
    else db
  (experiments, db')

/-- The worker's claim query (start.py lines 898–905): `status ∈ PENDING`
unless unobserved, `slurm.array_id` absent unless stealing, then
`exp_query.update(filter_dict)` — so a user filter *overrides* the
`status` key when it names one.  (The `slurm.id` absence test of the srun
path is not modelled; the model has no `slurm.id` field.) -/
def build_worker_query (unobserved steal_slurm : Bool) (f : FilterDict) :
    Doc → Bool := fun d =>
  (match f.status? with
   | some ss => statusIn d.status ss
   | none => if unobserved then true else statusIn d.status StatesPENDING) &&
  (if steal_slurm then true else d.slurm_array_id.isNone) &&
  (match f.id? with | some i => d._id == i | none => true) &&
  f.pred d

/-- **C6, counterexample.** `start --sacred-id 1` on a COMPLETED document:
`build_filter_dict` yields the filter `{_id: 1}`, which names `_id`, so
`prepare_staged_experiments` skips the STAGED default and its
`update_many` sets the COMPLETED document straight to PENDING — the
engine rewrites a terminal status. -/
theorem C6_counterexample :
    (prepare_staged_experiments [{ _id := 1, status := .completed }]
        { id? := some 1 } 0 true).2 =
      [{ _id := 1, status := .pending }] ∧
    isTerminal .completed = true := by
  constructor
  · rfl
  · rfl

theorem updateMany_zip {db : Collection} {p : Doc → Bool} {u : Doc → Doc} :
    ∀ q ∈ (updateMany db p u).zip db, q.2 ∈ db ∧ (q.1 ≠ q.2 → p q.2 = true) := by
  induction db with
  | nil => simp [updateMany]
  | cons d ds ih =>
    intro q hq
    simp only [updateMany, List.map_cons, List.zip_cons_cons, List.mem_cons] at hq
    rcases hq with rfl | hq
    · by_cases hd : p d
      · exact ⟨List.mem_cons_self _ _, fun _ => hd⟩
      · refine ⟨List.mem_cons_self _ _, fun hne => ?_⟩
        simp [hd] at hne
    · obtain ⟨hmem, himp⟩ := ih q hq
      exact ⟨List.mem_cons_of_mem _ hmem, himp⟩

theorem staged_not_terminal :
    ∀ s : ExpStatus, statusIn s StatesSTAGED = true → isTerminal s = false := by
  intro s
  cases s <;> decide

theorem pending_not_terminal :
    ∀ s : ExpStatus, statusIn s StatesPENDING = true → isTerminal s = false := by
  intro s
  cases s <;> decide

/-- **C6, amended.** The dispatch engine's own selection never writes over
a terminal status; the engine can do so only where the user's filter
overrides the selection (the counterexample).  Precisely:
(a) when the filter names neither `_id` nor `status` (and document ids
are unique), every document `prepare_staged_experiments` rewrites was
STAGED immediately before the write;
(b) when the worker's filter carries no `status` key, the observed
worker's claim CAS only ever claims (and sets RUNNING on) a PENDING
document;
(c) the Preparation Hook's claim update only writes a document that was
PENDING or that carries the invoking Slurm task's own
`array_id`/`task_id` — never a terminal document from another task. -/
theorem C6_no_terminal_overwrite_guarded :
    (∀ (db : Collection) (f : FilterDict) (n : Nat) (stp : Bool),
      f.id? = none → f.status? = none → (db.map Doc._id).Nodup →
      ∀ q ∈ ((prepare_staged_experiments db f n stp).2).zip db, q.1 ≠ q.2 →
        statusIn q.2.status StatesSTAGED = true ∧ isTerminal q.2.status = false) ∧
    (∀ (db : Collection) (steal : Bool) (f : FilterDict) (d : Doc),
      f.status? = none →
      (findOneAndUpdate db (build_worker_query false steal f) setRunning).1 = some d →
        statusIn d.status StatesPENDING = true ∧ isTerminal d.status = false) ∧
    (∀ (db : Collection) (j t : Int) (x : Nat) (d : Doc),
      (get_experiment_and_set_running db (some j) (some t) x false).1 = some d →
        (statusIn d.status StatesPENDING = true ∧ isTerminal d.status = false) ∨
        (d.slurm_array_id = some j ∧ d.slurm_task_id = some t)) := by
  refine ⟨?_, ?_, ?_⟩
  · intro db f n stp hid hst hnd q hq hne
    unfold prepare_staged_experiments at hq
    rw [hid, hst] at hq
    simp only [Option.isNone_none, Bool.and_self, if_true] at hq
    have hqmatch : ∀ d : Doc,
        matchesFilter { id? := none, status? := some StatesSTAGED, pred := f.pred }
          d = true →
        statusIn d.status StatesSTAGED = true := by
      intro d hd
      unfold matchesFilter at hd
      simp only [Bool.and_eq_true] at hd
      exact hd.1.2
    cases stp with
    | false =>
      simp only [Bool.false_eq_true, if_false] at hq
      exfalso
      apply hne
      have hzip : ∀ l : Collection, ∀ q ∈ l.zip l, q.1 = q.2 := by
        intro l
        induction l with
        | nil => simp
        | cons a t ih =>
          intro q hq
          rcases List.mem_cons.mp hq with rfl | hq
          · rfl
          · exact ih q hq
      exact hzip db q hq
    | true =>
      simp only [if_true] at hq
      by_cases hn : 0 < n
      · rw [if_pos hn] at hq
        have hc1 : (n == 0) = false := by
          simp only [beq_eq_false_iff_ne, ne_eq]
          omega
        rw [hc1] at hq
        simp only [Bool.false_eq_true, if_false] at hq
        obtain ⟨hmem, himp⟩ := updateMany_zip q hq
        have hp := himp hne
        simp only [List.contains_eq_any_beq, List.any_eq_true] at hp
        obtain ⟨i, hi, hib⟩ := hp
        obtain ⟨e, he, hei⟩ := List.mem_map.mp hi
        have hetake :
            e ∈ db.filter
              (matchesFilter { id? := none, status? := some StatesSTAGED, pred := f.pred }) :=
          List.take_subset _ _ he
        have hefil := List.mem_filter.mp hetake
        have hqe : q.2 = e :=
          List.inj_on_of_nodup_map hnd hmem hefil.1
            (by rw [hei]; exact beq_iff_eq.mp hib)
        rw [hqe]
        exact ⟨hqmatch e hefil.2, staged_not_terminal _ (hqmatch e hefil.2)⟩
      · rw [if_neg hn] at hq
        obtain ⟨hmem, himp⟩ := updateMany_zip q hq
        have hp := himp hne
        exact ⟨hqmatch _ hp, staged_not_terminal _ (hqmatch _ hp)⟩
  · intro db steal f d hst hclaim
    have := (findOneAndUpdate_fst_eq_some hclaim).1
    unfold build_worker_query at this
    rw [hst] at this
    simp only [Bool.and_eq_true] at this
    have hp := this.1.1.1
    simp only [Bool.false_eq_true, if_false] at hp
    exact ⟨hp, pending_not_terminal _ hp⟩
  · intro db j t x d hclaim
    unfold get_experiment_and_set_running at hclaim
    simp only [Bool.false_eq_true, if_false] at hclaim
    have := (findOneAndUpdate_fst_eq_some hclaim).1
    unfold claimPredSlurm at this
    simp only [Bool.and_eq_true, Bool.or_eq_true] at this
    rcases this.2 with hp | hids
    · exact Or.inl ⟨hp, pending_not_terminal _ hp⟩
    · exact Or.inr ⟨beq_iff_eq.mp (by exact hids.1),
        beq_iff_eq.mp (by exact hids.2)⟩

/-- Witness for the amended C6: a STAGED document is the only thing the
default selection rewrites. -/
theorem C6_witness :
    ∀ q ∈ ((prepare_staged_experiments [{ _id := 1, status := .staged }]
        { } 0 true).2).zip [{ _id := 1, status := .staged }], q.1 ≠ q.2 →
      statusIn (Doc.status q.2) StatesSTAGED = true ∧
        isTerminal (Doc.status q.2) = false :=
  C6_no_terminal_overwrite_guarded.1 [{ _id := 1, status := .staged }]
    { } 0 true rfl rfl (by decide)

/-! ### C8: forbidden sbatch options

The sbatch dispatch path of `add_to_slurm_queue` / `set_slurm_job_name` /
`start_sbatch_job`, at the level of its externally visible effects:
writing the temp script, invoking `sbatch`, the per-experiment DB writes,
and removing the script.  `sbatchOk i` tells whether the `sbatch` call
for array `i` succeeds (a failing call logs, removes the script and exits
1). -/

inductive DispatchEffect
  | writeScript (arrayIdx : Nat)
  | submit (arrayIdx : Nat)
  | dbWrite (arrayIdx : Nat)
  | removeScript (arrayIdx : Nat)
  | exitOne
deriving DecidableEq, Repr

inductive DispatchOutcome
  | completed
  | raisedConfigError
  | exitedOne
deriving DecidableEq, Repr

/-- Generic dict-key assignment for string-valued option dicts. -/
def setKey (l : List (String × String)) (k v : String) : List (String × String) :=
  match l with
  | [] => [(k, v)]
  | (k', v') :: t => if k' == k then (k, v) :: t else (k', v') :: setKey t k v

def hasKey (l : List (String × String)) (k : String) : Bool :=
  l.any fun kv => kv.1 == k

def getKey (l : List (String × String)) (k : String) : Option String :=
  (l.find? fun kv => kv.1 == k).map fun kv => kv.2

/-- One Slurm job array as the dispatcher sees it before submission. -/
structure ArrayJob where
  sbatch_options : List (String × String)
  job_name : String
  batch_id : Nat
  n_chunks : Nat
deriving Repr

/-- `set_slurm_job_name` (start.py): forbid a caller-set `job-name`, set
`job-name = "{name}_{batch_id}"`, forbid a `comment` different from the
collection name, set `comment` to it. -/
def set_slurm_job_name (opts : List (String × String)) (name : String)
    (batch_id : Nat) (coll : String) : Except SemlError (List (String × String)) :=
  if hasKey opts ("job-name") then .error .configError
  else
    let opts := setKey opts ("job-name") (name ++ "_" ++ toString batch_id)
    if ((getKey opts ("comment")).getD coll) ≠ coll then .error .configError
    else .ok (setKey opts ("comment") coll)

/-- The effect trace of `start_sbatch_job` for one array (after
`set_slurm_job_name` succeeded): set the `array` option, forbid a
caller-set `output`, then write the temp script, run `sbatch`, update
every experiment, and remove the script (on `sbatch` failure: remove the
script and exit 1). -/
def start_sbatch_job_effects (i : Nat) (opts : List (String × String))
    (n_chunks : Nat) (ok : Bool) :
    Except SemlError (List DispatchEffect × DispatchOutcome) :=
  let opts := setKey opts ("array") ("0-" ++ toString (n_chunks - 1))
  if hasKey opts ("output") then .error .configError
  else if ok then
    .ok ([.writeScript i, .submit i, .dbWrite i, .removeScript i], .completed)
  else
    .ok ([.writeScript i, .submit i, .removeScript i, .exitOne], .exitedOne)

/-- One iteration of the `for exp_array in exp_arrays` loop. -/
def dispatch_array (i : Nat) (a : ArrayJob) (coll : String) (ok : Bool) :
    List DispatchEffect × DispatchOutcome :=
  match set_slurm_job_name a.sbatch_options a.job_name a.batch_id coll with
  | .error _ => ([], .raisedConfigError)
  | .ok opts =>
    match start_sbatch_job_effects i opts a.n_chunks ok with
    | .error _ => ([], .raisedConfigError)
    | .ok r => r

/-- The sbatch branch of `add_to_slurm_queue`: dispatch the arrays in
order; a raised `ConfigError` or an `exit(1)` stops the loop. -/
def dispatch_go (coll : String) (sbatchOk : Nat → Bool) :
    Nat → List ArrayJob → List DispatchEffect × DispatchOutcome
  | _, [] => ([], .completed)
  | i, a :: rest =>
    match dispatch_array i a coll (sbatchOk i) with
    | (tr, .completed) =>
      let r := dispatch_go coll sbatchOk (i + 1) rest
      (tr ++ r.1, r.2)
    | (tr, out) => (tr, out)

def add_to_slurm_queue_effects (arrays : List ArrayJob) (coll : String)
    (sbatchOk : Nat → Bool) : List DispatchEffect × DispatchOutcome :=
  dispatch_go coll sbatchOk 0 arrays

/-- A batch's caller-set sbatch options are forbidden: `output` or
`job-name` present, or `comment` present and different from the
collection name. -/
def forbiddenOpts (opts : List (String × String)) (coll : String) : Prop :=
  hasKey opts ("output") = true ∨ hasKey opts ("job-name") = true ∨
    (∃ c, getKey opts ("comment") = some c ∧ c ≠ coll)

theorem hasKey_cons {k0 v0 k' : String} {t : List (String × String)} :
    hasKey ((k0, v0) :: t) k' = ((k0 == k') || hasKey t k') := rfl

theorem getKey_cons {k0 v0 k' : String} {t : List (String × String)} :
    getKey ((k0, v0) :: t) k' = if (k0 == k') = true then some v0 else getKey t k' := by
  by_cases h : (k0 == k') = true <;> simp [getKey, List.find?, h]

theorem hasKey_setKey_ne {k k' v : String} (h : k' ≠ k) :
    ∀ {l : List (String × String)}, hasKey (setKey l k v) k' = hasKey l k' := by
  intro l
  induction l with
  | nil =>
    show hasKey [(k, v)] k' = hasKey [] k'
    rw [hasKey_cons]
    simp [beq_eq_false_iff_ne.mpr (Ne.symm h), hasKey]
  | cons p t ih =>
    obtain ⟨k0, v0⟩ := p
    by_cases hk : k0 = k
    · subst hk
      have hs : setKey ((k0, v0) :: t) k0 v = (k0, v) :: t := by
        simp [setKey]
      rw [hs, hasKey_cons, hasKey_cons]
    · have hs : setKey ((k0, v0) :: t) k v = (k0, v0) :: setKey t k v := by
        simp [setKey, beq_eq_false_iff_ne.mpr hk]
      rw [hs, hasKey_cons, hasKey_cons, ih]

theorem getKey_setKey_ne {k k' v : String} (h : k' ≠ k) :
    ∀ {l : List (String × String)}, getKey (setKey l k v) k' = getKey l k' := by
  intro l
  induction l with
  | nil =>
    show getKey [(k, v)] k' = getKey [] k'
    rw [getKey_cons]
    simp [beq_eq_false_iff_ne.mpr (Ne.symm h), getKey]
  | cons p t ih =>
    obtain ⟨k0, v0⟩ := p
    by_cases hk : k0 = k
    · subst hk
      have hs : setKey ((k0, v0) :: t) k0 v = (k0, v) :: t := by
        simp [setKey]
      rw [hs, getKey_cons, getKey_cons]
      simp [beq_eq_false_iff_ne.mpr (Ne.symm h)]
    · have hs : setKey ((k0, v0) :: t) k v = (k0, v0) :: setKey t k v := by
        simp [setKey, beq_eq_false_iff_ne.mpr hk]
      rw [hs, getKey_cons, getKey_cons, ih]

theorem dispatch_array_of_err {a : ArrayJob} {coll : String} {i : Nat} {ok : Bool}
    (e : SemlError)
    (h : set_slurm_job_name a.sbatch_options a.job_name a.batch_id coll = .error e) :
    dispatch_array i a coll ok = ([], .raisedConfigError) := by
  unfold dispatch_array
  rw [h]

theorem dispatch_array_of_ok {a : ArrayJob} {coll : String} {i : Nat} {ok : Bool}
    {opts : List (String × String)}
    (h : set_slurm_job_name a.sbatch_options a.job_name a.batch_id coll = .ok opts)
    (h2 : start_sbatch_job_effects i opts a.n_chunks ok = .error .configError) :
    dispatch_array i a coll ok = ([], .raisedConfigError) := by
  unfold dispatch_array
  rw [h]
  show (match start_sbatch_job_effects i opts a.n_chunks ok with
    | .error _ => (([] : List DispatchEffect), DispatchOutcome.raisedConfigError)
    | .ok r => r) = ([], .raisedConfigError)
  rw [h2]

/-- A forbidden option set makes `dispatch_array` raise before any
effect. -/
theorem dispatch_array_forbidden {a : ArrayJob} {coll : String}
    (hf : forbiddenOpts a.sbatch_options coll) (i : Nat) (ok : Bool) :
    dispatch_array i a coll ok = ([], .raisedConfigError) := by
  by_cases hjn : hasKey a.sbatch_options ("job-name") = true
  · apply dispatch_array_of_err .configError
    unfold set_slurm_job_name
    rw [if_pos hjn]
  · by_cases hcm : ((getKey (setKey a.sbatch_options ("job-name")
        (a.job_name ++ "_" ++ toString a.batch_id)) ("comment")).getD coll) ≠ coll
    · apply dispatch_array_of_err .configError
      unfold set_slurm_job_name
      rw [if_neg hjn, if_pos hcm]
    · have hok : set_slurm_job_name a.sbatch_options a.job_name a.batch_id coll =
          .ok (setKey (setKey a.sbatch_options ("job-name")
            (a.job_name ++ "_" ++ toString a.batch_id)) ("comment") coll) := by
        unfold set_slurm_job_name
        rw [if_neg hjn, if_neg hcm]
      rcases hf with hout | hjn' | ⟨c, hc, hne⟩
      · apply dispatch_array_of_ok hok
        unfold start_sbatch_job_effects
        rw [if_pos (by
          rw [hasKey_setKey_ne (by decide), hasKey_setKey_ne (by decide),
            hasKey_setKey_ne (by decide)]
          exact hout)]
      · exact absurd hjn' hjn
      · exfalso
        apply hcm
        rw [getKey_setKey_ne (by decide), hc]
        simpa using hne

/-- The effect trace of one array dispatch is empty, the four-step
success trace, or the failure trace. -/
theorem dispatch_array_trace_cases (i : Nat) (a : ArrayJob) (coll : String)
    (ok : Bool) :
    (dispatch_array i a coll ok).1 = [] ∨
    (dispatch_array i a coll ok).1 =
      [.writeScript i, .submit i, .dbWrite i, .removeScript i] ∨
    (dispatch_array i a coll ok).1 =
      [.writeScript i, .submit i, .removeScript i, .exitOne] := by
  cases hsj : set_slurm_job_name a.sbatch_options a.job_name a.batch_id coll with
  | error e =>
    left
    rw [dispatch_array_of_err e hsj]
  | ok opts =>
    have hd : dispatch_array i a coll ok =
        (match start_sbatch_job_effects i opts a.n_chunks ok with
          | .error _ => (([] : List DispatchEffect), DispatchOutcome.raisedConfigError)
          | .ok r => r) := by
      unfold dispatch_array
      rw [hsj]
    rw [hd]
    cases hse : start_sbatch_job_effects i opts a.n_chunks ok with
    | error e => left; rfl
    | ok r =>
      unfold start_sbatch_job_effects at hse
      by_cases ho : hasKey (setKey opts ("array") ("0-" ++ toString (a.n_chunks - 1)))
          ("output") = true
      · rw [if_pos ho] at hse
        cases hse
      · rw [if_neg ho] at hse
        cases ok with
        | true =>
          rw [if_pos rfl] at hse
          cases hse
          right; left; rfl
        | false =>
          rw [if_neg (by decide)] at hse
          cases hse
          right; right; rfl

/-- **C8.** For every batch whose caller-set `sbatch_options` contain
`output` or `job-name`, or a `comment` different from the collection
name: dispatching that batch raises `ConfigError` with *no* effect (no
temp script is written, nothing is submitted); in the whole dispatch run
no script or submission ever happens for that batch and the run does not
complete; and every temp script that any batch writes is removed again
(on both the success and the failure path of `sbatch`). -/
theorem C8_forbidden_sbatch_key (coll : String) (sbatchOk : Nat → Bool) :
    (∀ (i : Nat) (a : ArrayJob) (ok : Bool), forbiddenOpts a.sbatch_options coll →
      dispatch_array i a coll ok = ([], .raisedConfigError)) ∧
    (∀ (arrays : List ArrayJob) (i : Nat) (a : ArrayJob),
      arrays.get? i = some a → forbiddenOpts a.sbatch_options coll →
      (add_to_slurm_queue_effects arrays coll sbatchOk).2 ≠ .completed ∧
      DispatchEffect.writeScript i ∉ (add_to_slurm_queue_effects arrays coll sbatchOk).1 ∧
      DispatchEffect.submit i ∉ (add_to_slurm_queue_effects arrays coll sbatchOk).1) ∧
    (∀ (arrays : List ArrayJob) (j : Nat),
      DispatchEffect.writeScript j ∈ (add_to_slurm_queue_effects arrays coll sbatchOk).1 →
      DispatchEffect.removeScript j ∈ (add_to_slurm_queue_effects arrays coll sbatchOk).1) := by
  have hgo :
      ∀ (arrays : List ArrayJob) (start : Nat) (i : Nat) (a : ArrayJob),
        arrays.get? i = some a → forbiddenOpts a.sbatch_options coll →
        (dispatch_go coll sbatchOk start arrays).2 ≠ .completed ∧
        DispatchEffect.writeScript (start + i) ∉ (dispatch_go coll sbatchOk start arrays).1 ∧
        DispatchEffect.submit (start + i) ∉ (dispatch_go coll sbatchOk start arrays).1 := by
    intro arrays
    induction arrays with
    | nil =>
      intro start i a ha
      simp at ha
    | cons a0 rest ih =>
      intro start i a ha hf
      cases i with
      | zero =>
        simp only [List.get?_cons_zero, Option.some.injEq] at ha
        subst ha
        unfold dispatch_go
        rw [dispatch_array_forbidden hf start (sbatchOk start)]
        refine ⟨?_, ?_, ?_⟩
        · show DispatchOutcome.raisedConfigError ≠ DispatchOutcome.completed
          decide
        · show DispatchEffect.writeScript (start + 0) ∉ ([] : List DispatchEffect)
          simp
        · show DispatchEffect.submit (start + 0) ∉ ([] : List DispatchEffect)
          simp
      | succ j =>
        simp only [List.get?_cons_succ] at ha
        have hrec := ih (start + 1) j a ha hf
        have hcases := dispatch_array_trace_cases start a0 coll (sbatchOk start)
        unfold dispatch_go
        cases hda : dispatch_array start a0 coll (sbatchOk start) with
        | mk tr out =>
          rw [hda] at hcases
          simp only at hcases
          have hne1 : DispatchEffect.writeScript (start + (j + 1)) ∉ tr := by
            intro hmem
            rcases hcases with h | h | h <;> rw [h] at hmem <;> simp at hmem <;> omega
          have hne2 : DispatchEffect.submit (start + (j + 1)) ∉ tr := by
            intro hmem
            rcases hcases with h | h | h <;> rw [h] at hmem <;> simp at hmem <;> omega
          have harith : start + 1 + j = start + (j + 1) := by omega
          cases out with
          | completed =>
            refine ⟨?_, ?_, ?_⟩
            · show (dispatch_go coll sbatchOk (start + 1) rest).2 ≠ .completed
              exact hrec.1
            · show DispatchEffect.writeScript (start + (j + 1)) ∉
                tr ++ (dispatch_go coll sbatchOk (start + 1) rest).1
              intro hmem
              rcases List.mem_append.mp hmem with h | h
              · exact hne1 h
              · exact hrec.2.1 (harith ▸ h)
            · show DispatchEffect.submit (start + (j + 1)) ∉
                tr ++ (dispatch_go coll sbatchOk (start + 1) rest).1
              intro hmem
              rcases List.mem_append.mp hmem with h | h
              · exact hne2 h
              · exact hrec.2.2 (harith ▸ h)
          | raisedConfigError =>
            refine ⟨?_, hne1, hne2⟩
            show DispatchOutcome.raisedConfigError ≠ DispatchOutcome.completed
            decide
          | exitedOne =>
            refine ⟨?_, hne1, hne2⟩
            show DispatchOutcome.exitedOne ≠ DispatchOutcome.completed
            decide
  have hbal :
      ∀ (arrays : List ArrayJob) (start : Nat) (j : Nat),
        DispatchEffect.writeScript j ∈ (dispatch_go coll sbatchOk start arrays).1 →
        DispatchEffect.removeScript j ∈ (dispatch_go coll sbatchOk start arrays).1 := by
    intro arrays
    induction arrays with
    | nil =>
      intro start j h
      simp [dispatch_go] at h
    | cons a0 rest ih =>
      intro start j h
      have hcases := dispatch_array_trace_cases start a0 coll (sbatchOk start)
      unfold dispatch_go at h ⊢
      cases hda : dispatch_array start a0 coll (sbatchOk start) with
      | mk tr out =>
        rw [hda] at h hcases
        simp only at hcases
        have harr : DispatchEffect.writeScript j ∈ tr →
            DispatchEffect.removeScript j ∈ tr := by
          intro hmem
          rcases hcases with hc | hc | hc <;> rw [hc] at hmem ⊢ <;> simp at hmem ⊢
          · rcases hmem with rfl | hmem <;> simp_all
          · rcases hmem with rfl | hmem <;> simp_all
        cases out with
        | completed =>
          replace h : DispatchEffect.writeScript j ∈
              tr ++ (dispatch_go coll sbatchOk (start + 1) rest).1 := h
          show DispatchEffect.removeScript j ∈
            tr ++ (dispatch_go coll sbatchOk (start + 1) rest).1
          rcases List.mem_append.mp h with h | h
          · exact List.mem_append_left _ (harr h)
          · exact List.mem_append_right _ (ih (start + 1) j h)
        | raisedConfigError => exact harr h
        | exitedOne => exact harr h
  refine ⟨?_, ?_, ?_⟩
  · intro i a ok hf
    exact dispatch_array_forbidden hf i ok
  · intro arrays i a ha hf
    have := hgo arrays 0 i a ha hf
    simpa using this
  · intro arrays j h
    exact hbal arrays 0 j h

/-- Witness for C8: a batch with a caller-set `output` raises and has no
effects. -/
theorem C8_witness :
    dispatch_array 0
      { sbatch_options := [("output", "x.log")], job_name := "n",
        batch_id := 7, n_chunks := 2 } ("col") true =
      ([], .raisedConfigError) :=
  (C8_forbidden_sbatch_key ("col") (fun _ => true)).1 0
    { sbatch_options := [("output", "x.log")], job_name := "n",
      batch_id := 7, n_chunks := 2 } true (Or.inl rfl)

end Seml
